import Mathlib

/-!
# Object Detection (`main.cpp`): a shallow embedding

The program localises an object by colour-histogram nearest-neighbour matching.
This file embeds the functions of `main.cpp` and proves properties of them.

Modelling conventions.

* A C++ `int` is a Lean `Int`.  The arithmetic of the histogram, of the drawing loops
  and of the streams is exact: signed overflow, which is undefined behaviour in C++,
  is not modelled there, and the predicate `IsInt` marks the values a 32-bit `int`
  can hold.  The subtraction `histogram1[i] - histogram2[i]` of `histogramDistance`
  is computed as the processor does, modulo `2^32` (`wrapInt`), in the binary64 form
  of the function.
* `int / int` truncates toward zero: `Int.tdiv`.
* A `std::vector<T>` is a `List T`.  An element access `v[i]` with `i` outside
  `[0, v.size())` is undefined behaviour; a function that can perform one returns
  an `Option`, and `none` stands for an execution that made such an access.
* A `double` is an IEEE 754 binary64 number.  Every double `histogramDistance`
  handles is a non-negative multiple of `2^-52`, so a double is held as a natural
  number: the accumulator `distance`, which is integer-valued, as its value, and the
  results of `std::sqrt` and `DBL_MAX` as their value times `2^52`.  The conversion
  of an `int` to `double` is exact; `std::pow(x, 2)`, `+=` and `std::sqrt` return
  the exact result rounded to the nearest double, ties to even (`round53`,
  `sqrt64`).  This is `histogramDistanceF64`, and `nearestNeighbor` compares these
  values.
* `histogramDistance` is the same loop in exact arithmetic, the distance as a real
  number without rounding or wrap-around: the integer sum of squares
  (`histogramDistanceSq`) and its real square root.  The metric properties are stated
  of it.
* A file is the list of its characters, `none` when it cannot be opened.  A
  `std::ifstream` is an `IStream` (characters extracted, characters left, state
  flags) and the extraction operators follow the C++11 rules of the "C" locale;
  `exit(1)` is the result `Run.exit 1`.
* A local variable declared without an initialiser holds a value that is a parameter
  of the function (`uninit`, `LoadUninit`): the theorems hold for every such value.
-/

namespace ObjectDetection

/-! ## Constants (lines 6-12) -/

/-- `const int MAX_COLOR = 255;` -/
def MAX_COLOR : Int := 255

/-- `const int NUM_BINS = 8;` -/
def NUM_BINS : Int := 8

/-- `const int BIN_SIZE = MAX_COLOR / NUM_BINS;` (integer division). -/
def BIN_SIZE : Int := Int.tdiv MAX_COLOR NUM_BINS

/-! ## Data (lines 14-28) -/

/-- `struct RGBColor { int r, g, b; };` -/
structure RGBColor where
  r : Int
  g : Int
  b : Int
deriving DecidableEq, Repr

/-- `struct BoundingBox { int x, y, width, height; };` -/
structure BoundingBox where
  x : Int
  y : Int
  width : Int
  height : Int
deriving DecidableEq, Repr

/-- `struct TrainingExample { BoundingBox bbox; std::vector<int> color_histogram; };` -/
structure TrainingExample where
  bbox : BoundingBox
  color_histogram : List Int
deriving DecidableEq, Repr

/-- The values of a 32-bit C++ `int`. -/
def IsInt (v : Int) : Prop := -2147483648 ≤ v ∧ v ≤ 2147483647

instance (v : Int) : Decidable (IsInt v) := by
  unfold IsInt; infer_instance

/-! ## Vector accesses -/

/-- Read `v[i]`: `none` when `i` is outside `[0, v.size())`. -/
def vecGet {α : Type} (v : List α) (i : Int) : Option α :=
  if 0 ≤ i then v[i.toNat]? else none

/-- Update `v[i]` in place by `f`: `none` when `i` is outside `[0, v.size())`. -/
def vecModify {α : Type} (v : List α) (i : Int) (f : α → α) : Option (List α) :=
  match vecGet v i with
  | some a => some (v.set i.toNat (f a))
  | none => none

/-- The values `lo, lo+1, ..., hi-1` of a loop `for (int k = lo; k < hi; k++)`. -/
def intRange (lo hi : Int) : List Int :=
  (List.range (hi - lo).toNat).map (fun (k : Nat) => lo + (k : Int))

/-! ## `computeColorHistogram` (lines 31-41) -/

/-- The index `bin_index` computed for one pixel (lines 34-37). -/
def binIndex (pixel : RGBColor) : Int :=
  let r_bin := Int.tdiv pixel.r BIN_SIZE
  let g_bin := Int.tdiv pixel.g BIN_SIZE
  let b_bin := Int.tdiv pixel.b BIN_SIZE
  r_bin * NUM_BINS * NUM_BINS + g_bin * NUM_BINS + b_bin

/-- One iteration of the loop of `computeColorHistogram`: `histogram[bin_index]++`. -/
def histogramStep (histogram : List Int) (pixel : RGBColor) : Option (List Int) :=
  vecModify histogram (binIndex pixel) (fun c => c + 1)

/-- `std::vector<int> computeColorHistogram(const std::vector<RGBColor>& pixels)`:
a vector of `NUM_BINS * NUM_BINS * NUM_BINS` zeros, incremented once per pixel. -/
def computeColorHistogram (pixels : List RGBColor) : Option (List Int) :=
  pixels.foldlM histogramStep (List.replicate (NUM_BINS * NUM_BINS * NUM_BINS).toNat 0)

/-! ## `histogramDistance` in exact arithmetic (lines 78-84) -/

/-- One iteration of the loop of `histogramDistance`:
`distance += std::pow(histogram1[i] - histogram2[i], 2)`. -/
def distanceStep (histogram1 histogram2 : List Int) (distance : Int) (i : Nat) : Option Int :=
  match histogram1[i]?, histogram2[i]? with
  | some a, some b => some (distance + (a - b) ^ 2)
  | _, _ => none

/-- The value of `distance` when the loop `for (i = 0; i < histogram1.size(); i++)`
of `histogramDistance` ends, before the square root. -/
def histogramDistanceSq (histogram1 histogram2 : List Int) : Option Int :=
  (List.range histogram1.length).foldlM (distanceStep histogram1 histogram2) 0

/-- `double histogramDistance(histogram1, histogram2)` in exact arithmetic:
`std::sqrt(distance)` as a real number. -/
noncomputable def histogramDistance (histogram1 histogram2 : List Int) : Option ℝ :=
  match histogramDistanceSq histogram1 histogram2 with
  | some distance => some (Real.sqrt (distance : ℝ))
  | none => none

/-! ## `histogramDistance` in binary64 (lines 78-84) -/

/-- The `int` a 32-bit subtraction leaves for the exact difference `v`: `v` reduced
modulo `2^32` into `[-2^31, 2^31)`. -/
def wrapInt (v : Int) : Int :=
  (v + 2147483648) % 4294967296 - 2147483648

/-- The recursion of `ilog2`: halve until the number is below two. -/
def log2Fuel : Nat → Nat → Nat
  | 0, _ => 0
  | fuel + 1, n => if n < 2 then 0 else log2Fuel fuel (n / 2) + 1

/-- The position of the leading bit: `floor (log2 n)` for `n ≥ 1`, and `0` for `0`. -/
def ilog2 (n : Nat) : Nat := log2Fuel n n

/-- The recursion of `isqrt`: the bits of the root, from bit `bits - 1` down. -/
def isqrtAux : Nat → Nat → Nat → Nat
  | 0, _, acc => acc
  | bits + 1, n, acc =>
    if (acc + 2 ^ bits) * (acc + 2 ^ bits) ≤ n then isqrtAux bits n (acc + 2 ^ bits)
    else isqrtAux bits n acc

/-- The integer square root `floor (sqrt n)`. -/
def isqrt (n : Nat) : Nat := isqrtAux (ilog2 n / 2 + 1) n 0

/-- Rounding of a natural number to binary64: to the nearest number with 53
significant bits, ties to the even one. -/
def round53 (n : Nat) : Nat :=
  let k := ilog2 n - 52
  let q := n / 2 ^ k
  let r := n % 2 ^ k
  if 2 * r < 2 ^ k ∨ (2 * r = 2 ^ k ∧ q % 2 = 0) then q * 2 ^ k else (q + 1) * 2 ^ k

/-- `std::sqrt` of the integer-valued double `n`, times `2^52`: the square root
rounded to the nearest number with 53 significant bits, ties to the even one.  With
`e = floor (log2 n) / 2` the root lies in `[2^e, 2^(e+1))`, `m0` is its 53-bit
significand rounded down, and the comparison of `n` with the square of the midpoint
`m0 + 1/2` decides between `m0` and `m0 + 1`. -/
def sqrt64 (n : Nat) : Nat :=
  if n = 0 then 0
  else
    let e := ilog2 n / 2
    let m0 := isqrt (n * 2 ^ 104 / 2 ^ (2 * e))
    let m := if 4 * n * 2 ^ 104 < (2 * m0 + 1) ^ 2 * 2 ^ (2 * e)
        ∨ (4 * n * 2 ^ 104 = (2 * m0 + 1) ^ 2 * 2 ^ (2 * e) ∧ m0 % 2 = 0) then m0 else m0 + 1
    m * 2 ^ e

/-- One iteration of the loop of `histogramDistance` in binary64:
`distance += std::pow(histogram1[i] - histogram2[i], 2)`, the `int` difference
wrapped, its square rounded, the sum rounded. -/
def distanceStepF64 (histogram1 histogram2 : List Int) (distance : Nat) (i : Nat) :
    Option Nat :=
  match histogram1[i]?, histogram2[i]? with
  | some a, some b => some (round53 (distance + round53 ((wrapInt (a - b)).natAbs ^ 2)))
  | _, _ => none

/-- `double histogramDistance(histogram1, histogram2)` as the program computes it:
the loop `for (i = 0; i < histogram1.size(); i++)` from `distance = 0.0`, then
`std::sqrt(distance)`; the result is the returned double times `2^52`. -/
def histogramDistanceF64 (histogram1 histogram2 : List Int) : Option Nat :=
  ((List.range histogram1.length).foldlM (distanceStepF64 histogram1 histogram2) 0).map sqrt64

/-! ## `nearestNeighbor` (lines 87-101) -/

/-- `std::numeric_limits<double>::max()`, which is `(2^53 - 1) * 2^971`, times
`2^52`. -/
def DBL_MAX : Nat := (2 ^ 53 - 1) * 2 ^ 1023

/-- One iteration of the loop of `nearestNeighbor`; the state is
`(best_bbox, best_distance)`. -/
def nearestStep (query_histogram : List Int) (st : BoundingBox × Nat)
    (ex : TrainingExample) : Option (BoundingBox × Nat) :=
  match histogramDistanceF64 query_histogram ex.color_histogram with
  | some distance => if distance < st.2 then some (ex.bbox, distance) else some st
  | none => none

/-- `BoundingBox nearestNeighbor(query_histogram, training_examples)`.
`best_bbox` is declared without an initialiser: `uninit` is whatever the local
variable holds at that point, and is what the function returns when no iteration
assigns it. -/
def nearestNeighbor (uninit : BoundingBox) (query_histogram : List Int)
    (training_examples : List TrainingExample) : Option BoundingBox :=
  (training_examples.foldlM (nearestStep query_histogram) (uninit, DBL_MAX)).map Prod.fst

/-! ## `drawBoundingBox` (lines 104-114) -/

/-- The body of the inner loop of `drawBoundingBox` (lines 107-110). -/
def drawPixel (bbox : BoundingBox) (y : Int) (pixels : List RGBColor) (x : Int) :
    Option (List RGBColor) :=
  let index := y * bbox.width + x
  vecModify pixels index (fun p => { p with r := MAX_COLOR, g := 0, b := 0 })

/-- The inner loop of `drawBoundingBox`: one value of `y`, all `x` (lines 106-112). -/
def drawRow (bbox : BoundingBox) (pixels : List RGBColor) (y : Int) : Option (List RGBColor) :=
  (intRange bbox.x (bbox.x + bbox.width)).foldlM (drawPixel bbox y) pixels

/-- `void drawBoundingBox(std::vector<RGBColor>& pixels, const BoundingBox& bbox)`;
the result is the buffer after the call. -/
def drawBoundingBox (pixels : List RGBColor) (bbox : BoundingBox) : Option (List RGBColor) :=
  (intRange bbox.y (bbox.y + bbox.height)).foldlM (drawRow bbox) pixels

/-! ## Definitions used by the statements and proofs -/

/-- The sum of the squared element-wise differences of two lists, taken over their
common positions. -/
def sumSqDiff (h1 h2 : List Int) : Int :=
  (List.zipWith (fun a b => (a - b) ^ 2) h1 h2).sum

/-- An iteration of `nearestNeighbor` for a distance that is defined on every
example: `d ex` is the distance of `ex` to the query. -/
def scanStep (d : TrainingExample → Nat) (st : BoundingBox × Nat) (ex : TrainingExample) :
    BoundingBox × Nat :=
  if d ex < st.2 then (ex.bbox, d ex) else st

/-- Every channel of the pixel lies in `[0, 255]`. -/
def ChannelsInRange (p : RGBColor) : Prop :=
  (0 ≤ p.r ∧ p.r ≤ 255) ∧ (0 ≤ p.g ∧ p.g ≤ 255) ∧ (0 ≤ p.b ∧ p.b ≤ 255)

instance (p : RGBColor) : Decidable (ChannelsInRange p) := by
  unfold ChannelsInRange; infer_instance

/-- The joint bin index in the words of the specification: bin width `256 / 8 = 32`,
`floor(r/32) * 64 + floor(g/32) * 8 + floor(b/32)`. -/
def specBinIndex (p : RGBColor) : Int :=
  (p.r / 32) * 64 + (p.g / 32) * 8 + p.b / 32

/-- The number of pixels the specification puts in bin `i`. -/
def specBinCount (pixels : List RGBColor) (i : Int) : Int :=
  ((pixels.filter (fun p => specBinIndex p = i)).length : Int)

/-- A loop `for (a : as) v[idx(a)] = f(v[idx(a)]);` of in-place updates of a vector. -/
def modifyAll {α β : Type} (idx : β → Int) (f : α → α) (v : List α) (as : List β) :
    Option (List α) :=
  as.foldlM (fun v a => vecModify v (idx a) f) v

/-- Every channel of the pixel lies in `[0, 247]`. -/
def ChannelsBelow248 (p : RGBColor) : Prop :=
  (0 ≤ p.r ∧ p.r ≤ 247) ∧ (0 ≤ p.g ∧ p.g ≤ 247) ∧ (0 ≤ p.b ∧ p.b ≤ 247)

instance (p : RGBColor) : Decidable (ChannelsBelow248 p) := by
  unfold ChannelsBelow248; infer_instance

/-- The colour `drawBoundingBox` gives a pixel: `r = MAX_COLOR`, `g = 0`, `b = 0`. -/
def paint (p : RGBColor) : RGBColor :=
  { p with r := MAX_COLOR, g := 0, b := 0 }

/-- The indices `y * bbox.width + x` that `drawBoundingBox` writes, in the order of
its two loops. -/
def drawIndices (bbox : BoundingBox) : List Int :=
  ((intRange bbox.y (bbox.y + bbox.height)).map (fun y =>
    (intRange bbox.x (bbox.x + bbox.width)).map (fun x => y * bbox.width + x))).flatten

/-! ## Text streams and files (lines 44-75, 117-130) -/

/-- `const char COMMENT_CHAR = '#';` -/
def COMMENT_CHAR : Char := '#'

/-- The result of a function that can end the process by `exit(code)`. -/
inductive Run (α : Type) where
  | ok (value : α)
  | exit (code : Int)
deriving DecidableEq, Repr

/-- The state of a `std::ifstream`: the characters already extracted (the last one
first), the characters still to come, and the state flags (`failbit` also stands
for `badbit`, which the program never tells apart). -/
structure IStream where
  consumed : List Char
  rest : List Char
  eofbit : Bool
  failbit : Bool
deriving DecidableEq, Repr

/-- `ifs.good()`: no state flag is set. -/
def IStream.good (s : IStream) : Bool := !s.eofbit && !s.failbit

/-- `std::isspace` in the "C" locale. -/
def isspace (c : Char) : Bool :=
  c.toNat = 32 || (9 ≤ c.toNat && c.toNat ≤ 13)

/-- `std::isdigit`. -/
def isdigit (c : Char) : Bool :=
  48 ≤ c.toNat && c.toNat ≤ 57

/-- The `sentry` of a formatted extraction `ifs >> x`: on a stream that is not good
it sets `failbit`; otherwise it skips white space, and sets `eofbit` and `failbit`
when the input ends there.  The boolean tells whether the extraction goes on. -/
def sentry (s : IStream) : IStream × Bool :=
  if s.good then
    match s.rest.dropWhile isspace with
    | [] =>
      ({ consumed := (s.rest.takeWhile isspace).reverse ++ s.consumed, rest := [],
         eofbit := true, failbit := true }, false)
    | c :: r =>
      ({ s with consumed := (s.rest.takeWhile isspace).reverse ++ s.consumed,
                rest := c :: r }, true)
  else ({ s with failbit := true }, false)

/-- `ifs >> str` for a `std::string` holding `current`: the characters up to the next
white space; `eofbit` when the input ends there.  The string keeps its value when the
sentry fails. -/
def readString (s : IStream) (current : List Char) : IStream × List Char :=
  match sentry s with
  | (s1, false) => (s1, current)
  | (s1, true) =>
    let token := s1.rest.takeWhile (fun c => !isspace c)
    let r := s1.rest.dropWhile (fun c => !isspace c)
    ({ s1 with consumed := token.reverse ++ s1.consumed, rest := r, eofbit := r.isEmpty },
     token)

/-- The number written by a sequence of decimal digits. -/
def decimalValue (digits : List Char) : Nat :=
  digits.foldl (fun acc c => 10 * acc + (c.toNat - 48)) 0

/-- `ifs >> n` for an `int` holding `current`: an optional sign and decimal digits.
The variable keeps its value when the sentry fails, becomes `0` when no digit
follows, and the nearest `int` (with `failbit`) when the number does not fit. -/
def readInt (s : IStream) (current : Int) : IStream × Int :=
  match sentry s with
  | (s1, false) => (s1, current)
  | (s1, true) =>
    let negative := s1.rest.head? = some '-'
    let signed := s1.rest.head? = some '-' ∨ s1.rest.head? = some '+'
    let sign := if signed then s1.rest.take 1 else []
    let afterSign := if signed then s1.rest.drop 1 else s1.rest
    let digits := afterSign.takeWhile isdigit
    let r := afterSign.dropWhile isdigit
    let s2 : IStream :=
      { s1 with consumed := digits.reverse ++ sign.reverse ++ s1.consumed, rest := r,
                eofbit := r.isEmpty }
    if digits.isEmpty then ({ s2 with failbit := true }, 0)
    else
      let value : Int := if negative then -(decimalValue digits : Int) else decimalValue digits
      if value > 2147483647 then ({ s2 with failbit := true }, 2147483647)
      else if value < -2147483648 then ({ s2 with failbit := true }, -2147483648)
      else (s2, value)

/-- `ifs.get()`: the next character, or `none` (the value `EOF`) with `failbit` when
the stream is not good or the input has ended. -/
def get (s : IStream) : IStream × Option Char :=
  if s.good then
    match s.rest with
    | [] => ({ s with eofbit := true, failbit := true }, none)
    | c :: r => ({ s with consumed := c :: s.consumed, rest := r }, some c)
  else ({ s with failbit := true }, none)

/-- `ifs.ignore(std::numeric_limits<std::streamsize>::max(), '\n')`: discards the
characters up to and including the next newline; `eofbit` when there is none. -/
def ignoreLine (s : IStream) : IStream :=
  if s.good then
    match s.rest.dropWhile (fun c => c ≠ '\n') with
    | [] =>
      { s with consumed := (s.rest.takeWhile (fun c => c ≠ '\n')).reverse ++ s.consumed,
               rest := [], eofbit := true }
    | nl :: r =>
      { s with consumed := nl :: (s.rest.takeWhile (fun c => c ≠ '\n')).reverse ++ s.consumed,
               rest := r }
  else { s with failbit := true }

/-- `ifs.unget()`: clears `eofbit`, then steps back one character unless the stream
has failed. -/
def unget (s : IStream) : IStream :=
  if s.failbit then { s with eofbit := false }
  else
    match s.consumed with
    | [] => { s with eofbit := false, failbit := true }
    | c :: cs => { s with consumed := cs, rest := c :: s.rest, eofbit := false }

/-- The loop `while (comment_char == COMMENT_CHAR) { ifs.ignore(..., '\n');
comment_char = ifs.get(); }` (lines 63-66).  An iteration that goes on has extracted a
character, so `fuel` above the number of characters left is never used up. -/
def skipComments : Nat → IStream → Option Char → IStream × Option Char
  | 0, s, comment_char => (s, comment_char)
  | fuel + 1, s, comment_char =>
    if comment_char = some COMMENT_CHAR then
      skipComments fuel (get (ignoreLine s)).1 (get (ignoreLine s)).2
    else (s, comment_char)

/-- The statement `ifs >> pixel.r >> pixel.g >> pixel.b;` (line 71) on a `pixel`
holding `current`. -/
def readPixel (s : IStream) (current : RGBColor) : IStream × RGBColor :=
  let r := readInt s current.r
  let g := readInt r.1 current.g
  let b := readInt g.1 current.b
  (b.1, ⟨r.2, g.2, b.2⟩)

/-- The loop of lines 69-73, `n` iterations: `uninit i` is what the local `pixel`,
declared without an initialiser, holds in iteration `i`. -/
def readPixels (uninit : Nat → RGBColor) (n : Nat) (s : IStream) : List RGBColor :=
  ((List.range n).foldl
    (fun (st : IStream × List RGBColor) i =>
      ((readPixel st.1 (uninit i)).1, st.2 ++ [(readPixel st.1 (uninit i)).2]))
    (s, [])).2

/-- What the locals of `loadImage` declared without an initialiser hold. -/
structure LoadUninit where
  width : Int
  height : Int
  max_color : Int
  pixel : Nat → RGBColor

/-- `std::vector<RGBColor> loadImage(const std::string& filename)`; `file` is the
content of the file, `none` when it cannot be opened. -/
def loadImage (u : LoadUninit) (file : Option (List Char)) : Run (List RGBColor) :=
  match file with
  | none => Run.exit 1
  | some text =>
    let ifs0 : IStream := ⟨[], text, false, false⟩
    let magic := readString ifs0 []
    if magic.2 ≠ ['P', '3'] then Run.exit 1
    else
      let width := readInt magic.1 u.width
      let height := readInt width.1 u.height
      let max_color := readInt height.1 u.max_color
      if max_color.2 ≠ MAX_COLOR then Run.exit 1
      else
        let first := get max_color.1
        let skipped := skipComments (first.1.rest.length + 1) first.1 first.2
        let ifs := unget skipped.1
        Run.ok (readPixels u.pixel (width.2 * height.2).toNat ifs)

/-- `ofs << n` for an `int`: a minus sign for a negative number, then its decimal
digits. -/
def showInt (n : Int) : List Char :=
  if n < 0 then '-' :: Nat.toDigits 10 (-n).toNat else Nat.toDigits 10 n.toNat

/-- The line `ofs << pixel.r << " " << pixel.g << " " << pixel.b << std::endl;`. -/
def showPixel (pixel : RGBColor) : List Char :=
  showInt pixel.r ++ [' '] ++ showInt pixel.g ++ [' '] ++ showInt pixel.b ++ ['\n']

/-- The text `saveImage` writes (lines 124-129). -/
def saveImageText (pixels : List RGBColor) (width height : Int) : List Char :=
  ['P', '3', '\n'] ++ showInt width ++ [' '] ++ showInt height ++ ['\n']
    ++ showInt MAX_COLOR ++ ['\n'] ++ (pixels.map showPixel).flatten

/-- `void saveImage(pixels, filename, width, height)`: the content of the file
written, or `exit(1)` when it cannot be opened for writing. -/
def saveImage (writable : Bool) (pixels : List RGBColor) (width height : Int) :
    Run (List Char) :=
  if writable then Run.ok (saveImageText pixels width height) else Run.exit 1

/-- `int main()`: `exampleFile` and `testFile` are the contents of `example.ppm` and
`test.ppm`; the result is the content written to `result.ppm`, or the `exit`, and
`none` for an execution with an out-of-range access. -/
def main (uExample uTest : LoadUninit) (uBox : BoundingBox)
    (exampleFile testFile : Option (List Char)) (resultWritable : Bool) :
    Option (Run (List Char)) :=
  match loadImage uExample exampleFile with
  | Run.exit code => some (Run.exit code)
  | Run.ok example_pixels =>
    match computeColorHistogram example_pixels with
    | none => none
    | some color_histogram =>
      match loadImage uTest testFile with
      | Run.exit code => some (Run.exit code)
      | Run.ok test_pixels =>
        match computeColorHistogram test_pixels with
        | none => none
        | some test_histogram =>
          match nearestNeighbor uBox test_histogram [⟨⟨60, 40, 100, 80⟩, color_histogram⟩] with
          | none => none
          | some bbox =>
            match drawBoundingBox test_pixels bbox with
            | none => none
            | some drawn => some (saveImage resultWritable drawn bbox.width bbox.height)

/-! ## The distance loop -/

theorem distanceStep_cons (a b : Int) (t1 t2 : List Int) (acc : Int) (i : Nat) :
    distanceStep (a :: t1) (b :: t2) acc (i + 1) = distanceStep t1 t2 acc i := by
  simp [distanceStep]

theorem distance_loop (t1 : List Int) :
    ∀ (t2 : List Int) (acc : Int), t1.length ≤ t2.length →
      (List.range t1.length).foldlM (distanceStep t1 t2) acc = some (acc + sumSqDiff t1 t2) := by
  induction t1 with
  | nil => intro t2 acc _; simp [sumSqDiff]
  | cons a t1 ih =>
    intro t2 acc hlen
    cases t2 with
    | nil => simp at hlen
    | cons b t2 =>
      have hlen2 : t1.length ≤ t2.length := by simpa using hlen
      have hstep : (fun x y => distanceStep (a :: t1) (b :: t2) x (Nat.succ y))
          = distanceStep t1 t2 := by
        funext x y; exact distanceStep_cons a b t1 t2 x y
      have h0 : distanceStep (a :: t1) (b :: t2) acc 0 = some (acc + (a - b) ^ 2) := by
        simp [distanceStep]
      rw [List.length_cons, List.range_succ_eq_map, List.foldlM_cons, h0]
      simp only [Option.some_bind, Option.bind_eq_bind]
      rw [List.foldlM_map, hstep, ih t2 _ hlen2]
      simp [sumSqDiff, add_assoc]

theorem histogramDistanceSq_eq (h1 h2 : List Int) (hlen : h1.length ≤ h2.length) :
    histogramDistanceSq h1 h2 = some (sumSqDiff h1 h2) := by
  unfold histogramDistanceSq
  rw [distance_loop h1 h2 0 hlen]; simp

theorem sumSqDiff_nonneg (h1 h2 : List Int) : 0 ≤ sumSqDiff h1 h2 := by
  unfold sumSqDiff
  apply List.sum_nonneg
  intro x hx
  rw [List.mem_iff_getElem] at hx
  obtain ⟨n, hn, rfl⟩ := hx
  simp only [List.getElem_zipWith]
  positivity

theorem sumSqDiff_comm (h1 h2 : List Int) : sumSqDiff h1 h2 = sumSqDiff h2 h1 := by
  unfold sumSqDiff
  rw [List.zipWith_comm]
  congr 1
  congr 1
  funext a b
  ring

theorem sumSqDiff_self (h : List Int) : sumSqDiff h h = 0 := by
  induction h with
  | nil => rfl
  | cons a t ih =>
    unfold sumSqDiff at ih ⊢
    simp [ih]

theorem distance_loop_none (t1 : List Int) :
    ∀ (t2 : List Int) (acc : Int), t2.length < t1.length →
      (List.range t1.length).foldlM (distanceStep t1 t2) acc = none := by
  induction t1 with
  | nil => intro t2 acc h; simp at h
  | cons a t1 ih =>
    intro t2 acc hlen
    cases t2 with
    | nil =>
      rw [List.length_cons, List.range_succ_eq_map, List.foldlM_cons]
      simp [distanceStep]
    | cons b t2 =>
      have hlen2 : t2.length < t1.length := by simpa using hlen
      have hstep : (fun x y => distanceStep (a :: t1) (b :: t2) x (Nat.succ y))
          = distanceStep t1 t2 := by
        funext x y; exact distanceStep_cons a b t1 t2 x y
      have h0 : distanceStep (a :: t1) (b :: t2) acc 0 = some (acc + (a - b) ^ 2) := by
        simp [distanceStep]
      rw [List.length_cons, List.range_succ_eq_map, List.foldlM_cons, h0]
      simp only [Option.some_bind, Option.bind_eq_bind]
      rw [List.foldlM_map, hstep, ih t2 _ hlen2]

/-- A second histogram shorter than the first is read out of range. -/
theorem histogramDistanceSq_eq_none (h1 h2 : List Int) (hlen : h2.length < h1.length) :
    histogramDistanceSq h1 h2 = none :=
  distance_loop_none h1 h2 0 hlen

theorem histogramDistanceSq_some {h1 h2 : List Int} {d : Int}
    (h : histogramDistanceSq h1 h2 = some d) :
    h1.length ≤ h2.length ∧ d = sumSqDiff h1 h2 := by
  by_cases hlen : h1.length ≤ h2.length
  · rw [histogramDistanceSq_eq h1 h2 hlen] at h
    exact ⟨hlen, (Option.some.inj h).symm⟩
  · rw [histogramDistanceSq_eq_none h1 h2 (Nat.lt_of_not_le hlen)] at h
    cases h

theorem histogramDistanceSq_nonneg {h1 h2 : List Int} {d : Int}
    (h : histogramDistanceSq h1 h2 = some d) : 0 ≤ d := by
  rw [(histogramDistanceSq_some h).2]
  exact sumSqDiff_nonneg h1 h2

/-! ## Binary64 arithmetic -/

theorem log2Fuel_eq (fuel : Nat) : ∀ n : Nat, n ≤ fuel → log2Fuel fuel n = Nat.log2 n := by
  induction fuel with
  | zero =>
    intro n hn
    have : n = 0 := by omega
    subst this
    rw [Nat.log2]
    simp [log2Fuel]
  | succ fuel ih =>
    intro n hn
    unfold log2Fuel
    rw [Nat.log2]
    by_cases h2 : n < 2
    · rw [if_pos h2, if_neg (by omega)]
    · rw [if_neg h2, if_pos (by omega), ih (n / 2) (by omega)]

theorem ilog2_eq (n : Nat) : ilog2 n = Nat.log2 n :=
  log2Fuel_eq n n (le_refl n)

theorem ilog2_le (n : Nat) (hn : n ≠ 0) : 2 ^ ilog2 n ≤ n := by
  rw [ilog2_eq]; exact Nat.log2_self_le hn

theorem lt_ilog2 (n : Nat) : n < 2 ^ (ilog2 n + 1) := by
  rw [ilog2_eq]; exact Nat.lt_log2_self

theorem ilog2_lt_of_lt (n j : Nat) (hn : n ≠ 0) (h : n < 2 ^ j) : ilog2 n < j := by
  rw [ilog2_eq]; exact (Nat.log2_lt hn).mpr h

theorem ilog2_eq_of_bounds (n j : Nat) (h1 : 2 ^ j ≤ n) (h2 : n < 2 ^ (j + 1)) :
    ilog2 n = j := by
  have hn : n ≠ 0 := by
    have : 0 < 2 ^ j := Nat.pow_pos (by norm_num)
    omega
  rw [ilog2_eq]
  have ha : n.log2 < j + 1 := (Nat.log2_lt hn).mpr h2
  have hb : j ≤ n.log2 := (Nat.le_log2 hn).mpr h1
  omega

theorem isqrtAux_spec (bits : Nat) :
    ∀ n acc : Nat, acc * acc ≤ n → n < (acc + 2 ^ bits) * (acc + 2 ^ bits) →
      isqrtAux bits n acc * isqrtAux bits n acc ≤ n ∧
        n < (isqrtAux bits n acc + 1) * (isqrtAux bits n acc + 1) := by
  induction bits with
  | zero =>
    intro n acc h1 h2
    simpa [isqrtAux] using ⟨h1, h2⟩
  | succ bits ih =>
    intro n acc h1 h2
    unfold isqrtAux
    by_cases hc : (acc + 2 ^ bits) * (acc + 2 ^ bits) ≤ n
    · rw [if_pos hc]
      apply ih n _ hc
      have : acc + 2 ^ bits + 2 ^ bits = acc + 2 ^ (bits + 1) := by rw [pow_succ]; omega
      rw [this]; exact h2
    · rw [if_neg hc]
      exact ih n acc h1 (by omega)

theorem isqrt_eq (n : Nat) : isqrt n = Nat.sqrt n := by
  rw [Nat.eq_sqrt]
  unfold isqrt
  apply isqrtAux_spec _ n 0 (Nat.zero_le _)
  have h1 := lt_ilog2 n
  have h2 : ilog2 n + 1 ≤ 2 * (ilog2 n / 2 + 1) := by omega
  have h3 : 2 ^ (ilog2 n + 1) ≤ 2 ^ (2 * (ilog2 n / 2 + 1)) :=
    Nat.pow_le_pow_right (by norm_num) h2
  rw [Nat.zero_add, ← pow_two, ← pow_mul, Nat.mul_comm]
  omega

/-- A number below `2^53` is a double: rounding leaves it as it is. -/
theorem round53_eq_self (n : Nat) (h : n < 2 ^ 53) : round53 n = n := by
  have hk : ilog2 n - 52 = 0 := by
    by_cases h0 : n = 0
    · subst h0; rfl
    · have := ilog2_lt_of_lt n 53 h0 h
      omega
  unfold round53
  simp only [hk, pow_zero, Nat.div_one, Nat.mod_one, mul_one]
  simp

/-- The rounding is to a multiple of the spacing `2^k`, `k = floor (log2 n) - 52`,
at most half a spacing away from `n`. -/
theorem round53_near (n : Nat) :
    2 ^ (ilog2 n - 52) ∣ round53 n ∧
    2 * n ≤ 2 * round53 n + 2 ^ (ilog2 n - 52) ∧
    2 * round53 n ≤ 2 * n + 2 ^ (ilog2 n - 52) := by
  have hdm := Nat.div_add_mod n (2 ^ (ilog2 n - 52))
  have hlt := Nat.mod_lt n (Nat.two_pow_pos (ilog2 n - 52))
  unfold round53
  dsimp only
  generalize 2 ^ (ilog2 n - 52) = p at *
  generalize n / p = q at *
  generalize n % p = r at *
  split
  · rename_i hc
    refine ⟨Dvd.intro_left q rfl, ?_, ?_⟩
    · rcases hc with hc | hc
      · nlinarith
      · nlinarith [hc.1]
    · nlinarith
  · rename_i hc
    have hge : p ≤ 2 * r := by
      by_contra hcon
      exact hc (Or.inl (by omega))
    refine ⟨Dvd.intro_left (q + 1) rfl, ?_, ?_⟩
    · nlinarith
    · nlinarith

/-- The result of `sqrt64` is `m * 2^e` with `e = floor (log2 n) / 2` and a
significand `m` in `[2^52, 2^53]`, and it is at most half a unit in the last place
away from the square root of `n` times `2^52`:
`(m - 1/2) * 2^e ≤ sqrt n * 2^52 ≤ (m + 1/2) * 2^e`, written on the squares. -/
theorem sqrt64_near (n : Nat) (hn : n ≠ 0) :
    ∃ m, sqrt64 n = m * 2 ^ (ilog2 n / 2) ∧ 2 ^ 52 ≤ m ∧ m ≤ 2 ^ 53 ∧
      (2 * m - 1) ^ 2 * 2 ^ (2 * (ilog2 n / 2)) ≤ 4 * n * 2 ^ 104 ∧
      4 * n * 2 ^ 104 ≤ (2 * m + 1) ^ 2 * 2 ^ (2 * (ilog2 n / 2)) := by
  have hlo : 2 ^ (2 * (ilog2 n / 2)) ≤ n :=
    le_trans (Nat.pow_le_pow_right (by norm_num) (by omega)) (ilog2_le n hn)
  have hhi : n < 2 ^ (2 * (ilog2 n / 2)) * 4 := by
    have h1 := lt_ilog2 n
    have h2 : (2 : Nat) ^ (ilog2 n + 1) ≤ 2 ^ (2 * (ilog2 n / 2) + 2) :=
      Nat.pow_le_pow_right (by norm_num) (by omega)
    have h3 : (2 : Nat) ^ (2 * (ilog2 n / 2) + 2) = 2 ^ (2 * (ilog2 n / 2)) * 4 := by
      rw [pow_add]; rfl
    rw [h3] at h2
    exact lt_of_lt_of_le h1 h2
  have hm0 := isqrt_eq (n * 2 ^ 104 / 2 ^ (2 * (ilog2 n / 2)))
  have hs1 := Nat.sqrt_le (n * 2 ^ 104 / 2 ^ (2 * (ilog2 n / 2)))
  have hs2 := Nat.lt_succ_sqrt (n * 2 ^ 104 / 2 ^ (2 * (ilog2 n / 2)))
  have hdm := Nat.div_add_mod (n * 2 ^ 104) (2 ^ (2 * (ilog2 n / 2)))
  have hlt := Nat.mod_lt (n * 2 ^ 104) (Nat.two_pow_pos (2 * (ilog2 n / 2)))
  unfold sqrt64
  rw [if_neg hn]
  dsimp only
  rw [hm0]
  generalize 2 ^ (2 * (ilog2 n / 2)) = p at *
  generalize 2 ^ (ilog2 n / 2) = pe at *
  generalize (n * 2 ^ 104) % p = r at *
  generalize (n * 2 ^ 104) / p = X at *
  generalize Nat.sqrt X = m0 at *
  have hp : 0 < p := by omega
  -- the scaled number lies in `[2^104, 2^106)`
  have hX1 : 2 ^ 104 ≤ X := by
    by_contra hcon
    have : X + 1 ≤ 2 ^ 104 := by omega
    nlinarith
  have hX2 : X < 2 ^ 106 := by
    by_contra hcon
    have : 2 ^ 106 ≤ X := by omega
    nlinarith
  have hm1 : 2 ^ 52 ≤ m0 := by
    by_contra hcon
    have : m0 + 1 ≤ 2 ^ 52 := by omega
    have : (m0 + 1) * (m0 + 1) ≤ 2 ^ 52 * 2 ^ 52 := Nat.mul_le_mul this this
    simp only [Nat.succ_eq_add_one] at hs2
    omega
  have hm2 : m0 < 2 ^ 53 := by
    by_contra hcon
    have : 2 ^ 53 ≤ m0 := by omega
    have : 2 ^ 53 * 2 ^ 53 ≤ m0 * m0 := Nat.mul_le_mul this this
    omega
  simp only [Nat.succ_eq_add_one] at hs2
  have hA : m0 * m0 * p ≤ n * 2 ^ 104 := by nlinarith
  have hB : n * 2 ^ 104 < (m0 + 1) * (m0 + 1) * p := by nlinarith
  split
  · rename_i hc
    refine ⟨m0, rfl, hm1, by omega, ?_, ?_⟩
    · obtain ⟨j, hj⟩ : ∃ j, m0 = j + 1 := ⟨m0 - 1, by omega⟩
      subst hj
      have : 2 * (j + 1) - 1 = 2 * j + 1 := by omega
      rw [this]
      nlinarith
    · rcases hc with hc | hc
      · exact le_of_lt hc
      · exact le_of_eq hc.1
  · rename_i hc
    have hge : (2 * m0 + 1) ^ 2 * p ≤ 4 * n * 2 ^ 104 := by
      by_contra hcon
      exact hc (Or.inl (by omega))
    refine ⟨m0 + 1, rfl, by omega, by omega, ?_, ?_⟩
    · have : 2 * (m0 + 1) - 1 = 2 * m0 + 1 := by omega
      rw [this]
      exact hge
    · nlinarith

theorem round53_le_succ_mul (x : Nat) :
    round53 x ≤ (x / 2 ^ (ilog2 x - 52) + 1) * 2 ^ (ilog2 x - 52) := by
  unfold round53
  dsimp only
  split
  · exact Nat.mul_le_mul_right _ (Nat.le_succ _)
  · exact le_refl _

/-- Rounding to binary64 does not pass a power of two: a number below `2^j` plus a
quarter of the spacing above `2^j` is rounded to at most `2^j`. -/
theorem round53_le_two_pow (j : Nat) (hj : 53 ≤ j) (x : Nat)
    (hx : 2 * x < 2 ^ (j + 1) + 2 ^ (j - 52)) : round53 x ≤ 2 ^ j := by
  have hpow : 2 ^ (j + 1) = 2 * 2 ^ j := by rw [pow_succ]; omega
  have hjk : 2 ^ j = 2 ^ (j - 52) * 2 ^ 52 := by
    rw [← pow_add]; congr 1; omega
  have hkpos : 0 < 2 ^ (j - 52) := Nat.pow_pos (by norm_num)
  by_cases hlt : x < 2 ^ j
  · by_cases hx0 : x = 0
    · subst hx0
      have : round53 0 = 0 := by decide
      rw [this]; exact Nat.zero_le _
    · have hL := ilog2_lt_of_lt x j hx0 hlt
      have hxL := lt_ilog2 x
      refine le_trans (round53_le_succ_mul x) ?_
      by_cases h52 : ilog2 x ≤ 52
      · have hk : ilog2 x - 52 = 0 := by omega
        rw [hk]
        simp only [pow_zero, Nat.div_one, Nat.mul_one]
        omega
      · have hsplit : 2 ^ (ilog2 x + 1) = 2 ^ (ilog2 x - 52) * 2 ^ 53 := by
          rw [← pow_add]; congr 1; omega
        have hq : x / 2 ^ (ilog2 x - 52) < 2 ^ 53 :=
          Nat.div_lt_of_lt_mul (by rw [← hsplit]; exact hxL)
        have hle : 2 ^ (ilog2 x + 1) ≤ 2 ^ j := Nat.pow_le_pow_right (by norm_num) hL
        calc (x / 2 ^ (ilog2 x - 52) + 1) * 2 ^ (ilog2 x - 52)
            ≤ 2 ^ 53 * 2 ^ (ilog2 x - 52) := Nat.mul_le_mul_right _ hq
          _ = 2 ^ (ilog2 x + 1) := by rw [hsplit, Nat.mul_comm]
          _ ≤ 2 ^ j := hle
  · have hge : 2 ^ j ≤ x := Nat.le_of_not_lt hlt
    have hk1 : 2 ^ (j - 52) ≤ 2 ^ (j + 1) := Nat.pow_le_pow_right (by norm_num) (by omega)
    have hL : ilog2 x = j := ilog2_eq_of_bounds x j hge (by omega)
    have hx2 : x = 2 ^ (j - 52) * 2 ^ 52 + (x - 2 ^ j) := by omega
    have hd : x - 2 ^ j < 2 ^ (j - 52) := by omega
    have hq : x / 2 ^ (j - 52) = 2 ^ 52 := by
      rw [hx2, Nat.mul_add_div hkpos, Nat.div_eq_of_lt hd]; rfl
    have hr : x % 2 ^ (j - 52) = x - 2 ^ j := by
      rw [hx2, Nat.mul_add_mod, Nat.mod_eq_of_lt hd]
      omega
    unfold round53
    dsimp only
    rw [hL, hq, hr, if_pos (Or.inl (by omega)), hjk, Nat.mul_comm]

theorem natAbs_wrapInt_sq_le (v : Int) : (wrapInt v).natAbs ^ 2 ≤ 2 ^ 62 := by
  have h : (wrapInt v).natAbs ≤ 2 ^ 31 := by
    unfold wrapInt
    omega
  calc (wrapInt v).natAbs ^ 2 ≤ (2 ^ 31) ^ 2 := Nat.pow_le_pow_left h 2
    _ = 2 ^ 62 := by norm_num

/-- One step of the accumulation keeps `distance` at most `2^116`: beyond that a
square, at most `2^62`, is less than half the spacing of binary64. -/
theorem distanceStepF64_le (h1 h2 : List Int) (acc i r : Nat) (hacc : acc ≤ 2 ^ 116)
    (h : distanceStepF64 h1 h2 acc i = some r) : r ≤ 2 ^ 116 := by
  unfold distanceStepF64 at h
  split at h
  · rename_i a b _ _
    have hs : round53 ((wrapInt (a - b)).natAbs ^ 2) ≤ 2 ^ 62 :=
      round53_le_two_pow 62 (by norm_num) _ (by
        have := natAbs_wrapInt_sq_le (a - b)
        have e1 : (2 : Nat) ^ (62 + 1) = 2 * 2 ^ 62 := by norm_num
        have e2 : 0 < (2 : Nat) ^ (62 - 52) := by norm_num
        omega)
    have hr := round53_le_two_pow 116 (by norm_num)
      (acc + round53 ((wrapInt (a - b)).natAbs ^ 2)) (by
        have e1 : (2 : Nat) ^ (116 + 1) = 2 * 2 ^ 116 := by norm_num
        have e2 : (2 : Nat) ^ (116 - 52) = 4 * 2 ^ 62 := by norm_num
        omega)
    rw [← Option.some.inj h]
    exact hr
  · cases h

theorem distanceF64_loop_le (h1 h2 : List Int) (is : List Nat) :
    ∀ acc r : Nat, acc ≤ 2 ^ 116 → is.foldlM (distanceStepF64 h1 h2) acc = some r →
      r ≤ 2 ^ 116 := by
  induction is with
  | nil =>
    intro acc r hacc h
    have : acc = r := by simpa using h
    rw [← this]; exact hacc
  | cons i t ih =>
    intro acc r hacc h
    rw [List.foldlM_cons] at h
    cases hstep : distanceStepF64 h1 h2 acc i with
    | none => rw [hstep] at h; cases h
    | some acc1 =>
      rw [hstep] at h
      exact ih acc1 r (distanceStepF64_le h1 h2 acc i acc1 hacc hstep) h

theorem two_pow_lt_two_pow (k n : Nat) (h : k < n) : (2 : Nat) ^ k < 2 ^ n :=
  Nat.pow_lt_pow_right (by decide) h

theorem DBL_MAX_ge : 2 ^ 1023 ≤ DBL_MAX := by
  unfold DBL_MAX
  have h1 : 1 ≤ 2 ^ 53 - 1 := by norm_num
  exact Nat.le_mul_of_pos_left _ h1

theorem sqrt64_lt_DBL_MAX (n : Nat) (hn : n ≤ 2 ^ 116) : sqrt64 n < DBL_MAX := by
  by_cases h0 : n = 0
  · have hz : sqrt64 n = 0 := by unfold sqrt64; exact if_pos h0
    rw [hz]
    exact lt_of_lt_of_le (Nat.two_pow_pos _) DBL_MAX_ge
  · refine lt_of_lt_of_le ?_ DBL_MAX_ge
    unfold sqrt64
    rw [if_neg h0]
    dsimp only
    have he : 2 ^ (ilog2 n / 2) ≤ 2 ^ 116 :=
      le_trans (Nat.pow_le_pow_right (by norm_num) (Nat.div_le_self _ _))
        (le_trans (ilog2_le n h0) hn)
    have hm0 : isqrt (n * 2 ^ 104 / 2 ^ (2 * (ilog2 n / 2))) ≤ 2 ^ 220 := by
      rw [isqrt_eq]
      refine le_trans (Nat.sqrt_le_self _) (le_trans (Nat.div_le_self _ _) ?_)
      calc n * 2 ^ 104 ≤ 2 ^ 116 * 2 ^ 104 := Nat.mul_le_mul_right _ hn
        _ = 2 ^ 220 := by rw [← pow_add]
    have hm : (if 4 * n * 2 ^ 104 < (2 * isqrt (n * 2 ^ 104 / 2 ^ (2 * (ilog2 n / 2))) + 1) ^ 2
          * 2 ^ (2 * (ilog2 n / 2)) ∨
        (4 * n * 2 ^ 104 = (2 * isqrt (n * 2 ^ 104 / 2 ^ (2 * (ilog2 n / 2))) + 1) ^ 2
          * 2 ^ (2 * (ilog2 n / 2)) ∧
          isqrt (n * 2 ^ 104 / 2 ^ (2 * (ilog2 n / 2))) % 2 = 0)
        then isqrt (n * 2 ^ 104 / 2 ^ (2 * (ilog2 n / 2)))
        else isqrt (n * 2 ^ 104 / 2 ^ (2 * (ilog2 n / 2))) + 1) ≤ 2 ^ 221 := by
      have e : (2 : Nat) ^ 221 = 2 * 2 ^ 220 := by rw [pow_succ]; omega
      have hp : 0 < (2 : Nat) ^ 220 := Nat.pow_pos (by norm_num)
      split <;> omega
    calc _ ≤ 2 ^ 221 * 2 ^ 116 := Nat.mul_le_mul hm he
      _ = 2 ^ (221 + 116) := by rw [← pow_add]
      _ < 2 ^ 1023 := two_pow_lt_two_pow _ _ (by decide)

theorem distanceStepF64_cons (a b : Int) (t1 t2 : List Int) (acc : Nat) (i : Nat) :
    distanceStepF64 (a :: t1) (b :: t2) acc (i + 1) = distanceStepF64 t1 t2 acc i := by
  simp [distanceStepF64]

theorem distanceF64_loop_some (t1 : List Int) :
    ∀ (t2 : List Int) (acc : Nat), t1.length ≤ t2.length →
      ∃ r, (List.range t1.length).foldlM (distanceStepF64 t1 t2) acc = some r := by
  induction t1 with
  | nil => intro t2 acc _; exact ⟨acc, rfl⟩
  | cons a t1 ih =>
    intro t2 acc hlen
    cases t2 with
    | nil => simp at hlen
    | cons b t2 =>
      have hlen2 : t1.length ≤ t2.length := by simpa using hlen
      have hstep : (fun x y => distanceStepF64 (a :: t1) (b :: t2) x (Nat.succ y))
          = distanceStepF64 t1 t2 := by
        funext x y; exact distanceStepF64_cons a b t1 t2 x y
      have h0 : distanceStepF64 (a :: t1) (b :: t2) acc 0
          = some (round53 (acc + round53 ((wrapInt (a - b)).natAbs ^ 2))) := by
        simp [distanceStepF64]
      rw [List.length_cons, List.range_succ_eq_map, List.foldlM_cons, h0]
      simp only [Option.some_bind, Option.bind_eq_bind]
      rw [List.foldlM_map, hstep]
      exact ih t2 _ hlen2

theorem distanceF64_loop_none (t1 : List Int) :
    ∀ (t2 : List Int) (acc : Nat), t2.length < t1.length →
      (List.range t1.length).foldlM (distanceStepF64 t1 t2) acc = none := by
  induction t1 with
  | nil => intro t2 acc h; simp at h
  | cons a t1 ih =>
    intro t2 acc hlen
    cases t2 with
    | nil =>
      rw [List.length_cons, List.range_succ_eq_map, List.foldlM_cons]
      simp [distanceStepF64]
    | cons b t2 =>
      have hlen2 : t2.length < t1.length := by simpa using hlen
      have hstep : (fun x y => distanceStepF64 (a :: t1) (b :: t2) x (Nat.succ y))
          = distanceStepF64 t1 t2 := by
        funext x y; exact distanceStepF64_cons a b t1 t2 x y
      have h0 : distanceStepF64 (a :: t1) (b :: t2) acc 0
          = some (round53 (acc + round53 ((wrapInt (a - b)).natAbs ^ 2))) := by
        simp [distanceStepF64]
      rw [List.length_cons, List.range_succ_eq_map, List.foldlM_cons, h0]
      simp only [Option.some_bind, Option.bind_eq_bind]
      rw [List.foldlM_map, hstep, ih t2 _ hlen2]

/-- An example histogram shorter than the query is read out of range. -/
theorem histogramDistanceF64_eq_none (h1 h2 : List Int) (hlen : h2.length < h1.length) :
    histogramDistanceF64 h1 h2 = none := by
  unfold histogramDistanceF64
  rw [distanceF64_loop_none h1 h2 0 hlen]
  rfl

/-- With a second histogram at least as long as the first, the distance is defined
and below `DBL_MAX`. -/
theorem histogramDistanceF64_eq_some (h1 h2 : List Int) (hlen : h1.length ≤ h2.length) :
    ∃ d, histogramDistanceF64 h1 h2 = some d ∧ d < DBL_MAX := by
  obtain ⟨r, hr⟩ := distanceF64_loop_some h1 h2 0 hlen
  have hle := distanceF64_loop_le h1 h2 _ 0 r (Nat.zero_le _) hr
  refine ⟨sqrt64 r, ?_, sqrt64_lt_DBL_MAX r hle⟩
  unfold histogramDistanceF64
  rw [hr]
  rfl

theorem histogramDistanceF64_lt {h1 h2 : List Int} {d : Nat}
    (h : histogramDistanceF64 h1 h2 = some d) : h1.length ≤ h2.length ∧ d < DBL_MAX := by
  by_cases hlen : h1.length ≤ h2.length
  · obtain ⟨d1, hd1, hlt⟩ := histogramDistanceF64_eq_some h1 h2 hlen
    rw [hd1] at h
    rw [← Option.some.inj h]
    exact ⟨hlen, hlt⟩
  · rw [histogramDistanceF64_eq_none h1 h2 (Nat.lt_of_not_le hlen)] at h
    cases h

/-! ## The nearest-neighbour scan -/

theorem nearestStep_fold (q : List Int) (d : TrainingExample → Nat) :
    ∀ (exs : List TrainingExample) (st : BoundingBox × Nat),
      (∀ e ∈ exs, histogramDistanceF64 q e.color_histogram = some (d e)) →
      exs.foldlM (nearestStep q) st = some (exs.foldl (scanStep d) st) := by
  intro exs
  induction exs with
  | nil => intro st _; rfl
  | cons a t ih =>
    intro st hd
    have ha := hd a (List.mem_cons_self _ _)
    have hstep : nearestStep q st a = some (scanStep d st a) := by
      simp only [nearestStep, scanStep, ha]
      split <;> rfl
    rw [List.foldlM_cons, hstep]
    simp only [Option.some_bind, Option.bind_eq_bind, List.foldl_cons]
    exact ih _ (fun e he => hd e (List.mem_cons_of_mem _ he))

/-- The scan ends on a distance that is at most the initial one and at most that
of every example scanned. -/
theorem scan_le (d : TrainingExample → Nat) :
    ∀ (exs : List TrainingExample) (st : BoundingBox × Nat),
      (exs.foldl (scanStep d) st).2 ≤ st.2 ∧ ∀ e ∈ exs, (exs.foldl (scanStep d) st).2 ≤ d e := by
  intro exs
  induction exs with
  | nil => intro st; simp
  | cons a t ih =>
    intro st
    obtain ⟨h1, h2⟩ := ih (scanStep d st a)
    have hst : (scanStep d st a).2 ≤ st.2 ∧ (scanStep d st a).2 ≤ d a := by
      unfold scanStep
      split
      · exact ⟨by simp; omega, by simp⟩
      · exact ⟨le_refl _, by omega⟩
    rw [List.foldl_cons]
    refine ⟨le_trans h1 hst.1, ?_⟩
    intro e he
    rcases List.mem_cons.mp he with rfl | he
    · exact le_trans h1 hst.2
    · exact h2 e he

/-- The scan either keeps its initial state, or ends on the first example whose
distance is below the initial one and strictly below that of every earlier example. -/
theorem scan_first (d : TrainingExample → Nat) :
    ∀ (exs : List TrainingExample) (st : BoundingBox × Nat),
      exs.foldl (scanStep d) st = st ∨
      ∃ pre e suf, exs = pre ++ e :: suf ∧ exs.foldl (scanStep d) st = (e.bbox, d e) ∧
        d e < st.2 ∧ ∀ e1 ∈ pre, d e < d e1 := by
  intro exs
  induction exs with
  | nil => intro st; left; rfl
  | cons a t ih =>
    intro st
    rw [List.foldl_cons]
    by_cases hlt : d a < st.2
    · have hs : scanStep d st a = (a.bbox, d a) := by simp [scanStep, hlt]
      rw [hs]
      right
      rcases ih (a.bbox, d a) with h | ⟨pre, e, suf, hex, hres, hlt2, hpre⟩
      · exact ⟨[], a, t, rfl, h, hlt, by simp⟩
      · refine ⟨a :: pre, e, suf, by simp [hex], hres, lt_trans hlt2 hlt, ?_⟩
        intro e1 he1
        rcases List.mem_cons.mp he1 with rfl | he1
        · exact hlt2
        · exact hpre e1 he1
    · have hs : scanStep d st a = st := by simp [scanStep, hlt]
      rw [hs]
      rcases ih st with h | ⟨pre, e, suf, hex, hres, hlt2, hpre⟩
      · left; exact h
      · right
        refine ⟨a :: pre, e, suf, by simp [hex], hres, hlt2, ?_⟩
        intro e1 he1
        rcases List.mem_cons.mp he1 with rfl | he1
        · omega
        · exact hpre e1 he1

/-! ## What the scan of `nearestNeighbor` returns -/

/-- With histograms at least as long as the query every distance is defined, and
it is below `DBL_MAX`. -/
theorem distanceF64_getD (q : List Int) (exs : List TrainingExample)
    (hlen : ∀ e ∈ exs, q.length ≤ e.color_histogram.length) :
    (∀ e ∈ exs, histogramDistanceF64 q e.color_histogram
        = some ((histogramDistanceF64 q e.color_histogram).getD 0)) ∧
    ∀ e ∈ exs, (histogramDistanceF64 q e.color_histogram).getD 0 < DBL_MAX := by
  constructor
  · intro e he
    obtain ⟨d, hd, _⟩ := histogramDistanceF64_eq_some q e.color_histogram (hlen e he)
    rw [hd]; rfl
  · intro e he
    obtain ⟨d, hd, hlt⟩ := histogramDistanceF64_eq_some q e.color_histogram (hlen e he)
    rw [hd]; exact hlt

/-- On a non-empty sequence whose histograms are at least as long as the query,
`nearestNeighbor` returns the box of an example of minimum distance that is strictly
closer than every example before it. -/
theorem nearestNeighbor_scan (uninit : BoundingBox) (q : List Int)
    (exs : List TrainingExample) (hne : exs ≠ [])
    (hlen : ∀ e ∈ exs, q.length ≤ e.color_histogram.length) :
    ∃ pre e suf d, exs = pre ++ e :: suf ∧ nearestNeighbor uninit q exs = some e.bbox ∧
      histogramDistanceF64 q e.color_histogram = some d ∧
      (∀ e1 ∈ pre, ∃ d1, histogramDistanceF64 q e1.color_histogram = some d1 ∧ d < d1) ∧
      ∀ e1 ∈ exs, ∃ d1, histogramDistanceF64 q e1.color_histogram = some d1 ∧ d ≤ d1 := by
  obtain ⟨hd, hbound⟩ := distanceF64_getD q exs hlen
  have hfold := nearestStep_fold q
    (fun e => (histogramDistanceF64 q e.color_histogram).getD 0) exs (uninit, DBL_MAX) hd
  have hle := scan_le (fun e => (histogramDistanceF64 q e.color_histogram).getD 0) exs
    (uninit, DBL_MAX)
  unfold nearestNeighbor
  rw [hfold]
  rcases scan_first (fun e => (histogramDistanceF64 q e.color_histogram).getD 0) exs
    (uninit, DBL_MAX) with h | ⟨pre, e, suf, hex, hres, _, hpre⟩
  · exfalso
    obtain ⟨a, ha⟩ := List.exists_mem_of_ne_nil exs hne
    have h1 := hle.2 a ha
    rw [h] at h1
    have h2 := hbound a ha
    simp only at h1
    omega
  · have hmem : e ∈ exs := by rw [hex]; simp
    refine ⟨pre, e, suf, _, hex, by rw [hres]; rfl, hd e hmem, ?_, ?_⟩
    · intro e1 he1
      have hmem1 : e1 ∈ exs := by rw [hex]; simp [he1]
      exact ⟨_, hd e1 hmem1, hpre e1 he1⟩
    · intro e1 he1
      have h1 := hle.2 e1 he1
      rw [hres] at h1
      exact ⟨_, hd e1 he1, h1⟩

theorem nearestNeighbor_single (uninit : BoundingBox) (q : List Int) (e : TrainingExample)
    (hlen : q.length ≤ e.color_histogram.length) :
    nearestNeighbor uninit q [e] = some e.bbox := by
  obtain ⟨pre, e1, suf, d, hdec, hres, _, _, _⟩ := nearestNeighbor_scan uninit q [e]
    (by simp) (fun x hx => by rw [List.mem_singleton] at hx; rw [hx]; exact hlen)
  have hmem : e1 ∈ [e] := by rw [hdec]; simp
  rw [List.mem_singleton] at hmem
  rw [hres, hmem]

/-! ## The distance in exact arithmetic -/

theorem histogramDistance_of_sq {h1 h2 : List Int} {s : Int}
    (h : histogramDistanceSq h1 h2 = some s) :
    histogramDistance h1 h2 = some (Real.sqrt (s : ℝ)) := by
  simp only [histogramDistance, h]

/-! ## The distance is a metric -/

theorem sumSqDiff_cons (a b : Int) (t1 t2 : List Int) :
    sumSqDiff (a :: t1) (b :: t2) = (a - b) ^ 2 + sumSqDiff t1 t2 := by
  simp [sumSqDiff]

theorem sumSqDiff_eq_zero_iff (a : List Int) :
    ∀ b : List Int, a.length = b.length → (sumSqDiff a b = 0 ↔ a = b) := by
  induction a with
  | nil =>
    intro b hlen
    cases b with
    | nil => simp [sumSqDiff]
    | cons y t => simp at hlen
  | cons x s ih =>
    intro b hlen
    cases b with
    | nil => simp at hlen
    | cons y t =>
      have hlen2 : s.length = t.length := by simpa using hlen
      have h1 : 0 ≤ (x - y) ^ 2 := sq_nonneg _
      have h2 := sumSqDiff_nonneg s t
      rw [sumSqDiff_cons, List.cons.injEq, ← ih t hlen2]
      constructor
      · intro h
        have hx : (x - y) ^ 2 = 0 := by omega
        have hs : sumSqDiff s t = 0 := by omega
        have : x - y = 0 := pow_eq_zero_iff (by norm_num) |>.mp hx
        exact ⟨by omega, hs⟩
      · rintro ⟨rfl, hs⟩
        simp [hs]

/-- The triangle inequality in the plane, in the form the induction over the
histogram entries needs. -/
theorem sqrt_add_sq_le (p q u v w : ℝ) (hu : 0 ≤ u) (hv : 0 ≤ v) (hw : 0 ≤ w)
    (hwuv : w ≤ u + v) :
    Real.sqrt ((p + q) ^ 2 + w ^ 2)
      ≤ Real.sqrt (p ^ 2 + u ^ 2) + Real.sqrt (q ^ 2 + v ^ 2) := by
  have hA : 0 ≤ p ^ 2 + u ^ 2 := by positivity
  have hB : 0 ≤ q ^ 2 + v ^ 2 := by positivity
  have hsA := Real.sqrt_nonneg (p ^ 2 + u ^ 2)
  have hsB := Real.sqrt_nonneg (q ^ 2 + v ^ 2)
  have hcs : p * q + u * v ≤ Real.sqrt (p ^ 2 + u ^ 2) * Real.sqrt (q ^ 2 + v ^ 2) := by
    rw [← Real.sqrt_mul hA]
    apply Real.le_sqrt_of_sq_le
    nlinarith [sq_nonneg (p * v - u * q)]
  rw [Real.sqrt_le_iff]
  refine ⟨by positivity, ?_⟩
  have e1 := Real.sq_sqrt hA
  have e2 := Real.sq_sqrt hB
  nlinarith [mul_nonneg hu hv, mul_nonneg hw hw]

theorem sqrt_sumSqDiff_triangle (a : List Int) :
    ∀ b c : List Int, a.length = b.length → b.length = c.length →
      Real.sqrt ((sumSqDiff a c : Int) : ℝ)
        ≤ Real.sqrt ((sumSqDiff a b : Int) : ℝ) + Real.sqrt ((sumSqDiff b c : Int) : ℝ) := by
  induction a with
  | nil =>
    intro b c hab hbc
    have hb : b = [] := List.length_eq_zero.mp (by simpa using hab.symm)
    subst hb
    have hc : c = [] := List.length_eq_zero.mp (by simpa using hbc.symm)
    subst hc
    simp [sumSqDiff]
  | cons x s ih =>
    intro b c hab hbc
    cases b with
    | nil => simp at hab
    | cons y t =>
      cases c with
      | nil => simp at hbc
      | cons z r =>
        have hab2 : s.length = t.length := by simpa using hab
        have hbc2 : t.length = r.length := by simpa using hbc
        have hst : (0 : ℝ) ≤ ((sumSqDiff s t : Int) : ℝ) := by
          exact_mod_cast sumSqDiff_nonneg s t
        have htr : (0 : ℝ) ≤ ((sumSqDiff t r : Int) : ℝ) := by
          exact_mod_cast sumSqDiff_nonneg t r
        have hsr : (0 : ℝ) ≤ ((sumSqDiff s r : Int) : ℝ) := by
          exact_mod_cast sumSqDiff_nonneg s r
        have h := sqrt_add_sq_le ((x : ℝ) - y) ((y : ℝ) - z)
          (Real.sqrt ((sumSqDiff s t : Int) : ℝ)) (Real.sqrt ((sumSqDiff t r : Int) : ℝ))
          (Real.sqrt ((sumSqDiff s r : Int) : ℝ))
          (Real.sqrt_nonneg _) (Real.sqrt_nonneg _) (Real.sqrt_nonneg _) (ih t r hab2 hbc2)
        rw [Real.sq_sqrt hst, Real.sq_sqrt htr, Real.sq_sqrt hsr] at h
        simp only [sumSqDiff_cons]
        push_cast
        have e : (x : ℝ) - y + (y - z) = x - z := by ring
        rw [e] at h
        exact h

/-! ## Loops of in-place updates -/

theorem vecModify_eq_some {α : Type} (v : List α) (i : Int) (f : α → α)
    (h0 : 0 ≤ i) (h1 : i < v.length) :
    ∃ out, vecModify v i f = some out ∧ out.length = v.length ∧
      ∀ j : Nat, out[j]? = if j = i.toNat then (v[j]?).map f else v[j]? := by
  have hlt : i.toNat < v.length := by omega
  have hget : v[i.toNat]? = some v[i.toNat] := List.getElem?_eq_getElem hlt
  refine ⟨v.set i.toNat (f v[i.toNat]), ?_, by simp, ?_⟩
  · simp only [vecModify, vecGet, if_pos h0, hget]
  · intro j
    by_cases hj : j = i.toNat
    · subst hj
      simp [hget, hlt]
    · rw [if_neg hj, List.getElem?_set_ne (Ne.symm hj)]

theorem vecModify_eq_none {α : Type} (v : List α) (i : Int) (f : α → α)
    (h : ¬ (0 ≤ i ∧ i < v.length)) : vecModify v i f = none := by
  by_cases h0 : 0 ≤ i
  · have hge : v.length ≤ i.toNat := by
      have : ¬ i < v.length := fun h1 => h ⟨h0, h1⟩
      omega
    simp only [vecModify, vecGet, if_pos h0, List.getElem?_eq_none hge]
  · simp only [vecModify, vecGet, if_neg h0]

theorem modifyAll_eq_some {α β : Type} (idx : β → Int) (f : α → α) (as : List β) :
    ∀ v : List α, (∀ a ∈ as, 0 ≤ idx a ∧ idx a < v.length) →
      ∃ out, modifyAll idx f v as = some out ∧ out.length = v.length ∧
        ∀ j : Nat, out[j]? = (v[j]?).map (f^[as.countP (fun a => idx a = (j : Int))]) := by
  induction as with
  | nil =>
    intro v _
    exact ⟨v, rfl, rfl, by intro j; simp⟩
  | cons a t ih =>
    intro v hin
    have ha := hin a (List.mem_cons_self _ _)
    obtain ⟨v1, hv1, hlen1, hget1⟩ := vecModify_eq_some v (idx a) f ha.1 ha.2
    obtain ⟨out, hout, hlen, hget⟩ := ih v1 (fun b hb => by
      rw [hlen1]; exact hin b (List.mem_cons_of_mem _ hb))
    refine ⟨out, ?_, by rw [hlen, hlen1], ?_⟩
    · unfold modifyAll at hout ⊢
      rw [List.foldlM_cons, hv1]
      exact hout
    · intro j
      rw [hget j, hget1 j, List.countP_cons]
      by_cases hj : j = (idx a).toNat
      · have hja : idx a = (j : Int) := by omega
        rw [if_pos hj]
        simp only [hja, decide_True, if_true, Function.iterate_succ, Option.map_map]
      · have hja : ¬ idx a = (j : Int) := by omega
        rw [if_neg hj]
        simp [hja]

theorem modifyAll_eq_none {α β : Type} (idx : β → Int) (f : α → α) (as : List β) :
    ∀ v : List α, (∃ a ∈ as, ¬ (0 ≤ idx a ∧ idx a < v.length)) →
      modifyAll idx f v as = none := by
  induction as with
  | nil => intro v h; simp at h
  | cons a t ih =>
    intro v hex
    unfold modifyAll
    rw [List.foldlM_cons]
    by_cases ha : 0 ≤ idx a ∧ idx a < v.length
    · obtain ⟨v1, hv1, hlen1, _⟩ := vecModify_eq_some v (idx a) f ha.1 ha.2
      rw [hv1]
      apply ih v1
      obtain ⟨b, hb, hnb⟩ := hex
      rcases List.mem_cons.mp hb with rfl | hb
      · exact absurd ha hnb
      · exact ⟨b, hb, by rw [hlen1]; exact hnb⟩
    · rw [vecModify_eq_none v (idx a) f ha]
      rfl

theorem modifyAll_perm {α β : Type} (idx : β → Int) (f : α → α) (v : List α)
    {as1 as2 : List β} (hp : as1.Perm as2) :
    modifyAll idx f v as1 = modifyAll idx f v as2 := by
  by_cases hin : ∀ a ∈ as1, 0 ≤ idx a ∧ idx a < v.length
  · have hin2 : ∀ a ∈ as2, 0 ≤ idx a ∧ idx a < v.length :=
      fun a ha => hin a (hp.mem_iff.mpr ha)
    obtain ⟨o1, h1, l1, g1⟩ := modifyAll_eq_some idx f as1 v hin
    obtain ⟨o2, h2, l2, g2⟩ := modifyAll_eq_some idx f as2 v hin2
    rw [h1, h2]
    congr 1
    apply List.ext_getElem?
    intro j
    rw [g1 j, g2 j, hp.countP_eq]
  · have hex1 : ∃ a ∈ as1, ¬ (0 ≤ idx a ∧ idx a < v.length) := by
      by_contra hcon
      apply hin
      intro a ha
      by_contra hna
      exact hcon ⟨a, ha, hna⟩
    have hex2 : ∃ a ∈ as2, ¬ (0 ≤ idx a ∧ idx a < v.length) := by
      obtain ⟨a, ha, hna⟩ := hex1
      exact ⟨a, hp.mem_iff.mp ha, hna⟩
    rw [modifyAll_eq_none idx f as1 v hex1, modifyAll_eq_none idx f as2 v hex2]

theorem vecModify_eq_set {α : Type} (v : List α) (i : Int) (f : α → α)
    (h0 : 0 ≤ i) (h1 : i.toNat < v.length) :
    vecModify v i f = some (v.set i.toNat (f (v.get ⟨i.toNat, h1⟩))) := by
  have hget : v[i.toNat]? = some (v.get ⟨i.toNat, h1⟩) := by
    rw [List.getElem?_eq_getElem h1]; rfl
  simp only [vecModify, vecGet, if_pos h0, hget]

theorem sum_set_add_one (v : List Int) :
    ∀ (n : Nat) (h : n < v.length), (v.set n (v.get ⟨n, h⟩ + 1)).sum = v.sum + 1 := by
  induction v with
  | nil => intro n h; simp at h
  | cons a t ih =>
    intro n h
    cases n with
    | zero => simp; ring
    | succ n =>
      have h2 : n < t.length := by simpa using h
      have := ih n h2
      simp only [List.set_cons_succ, List.sum_cons, List.get_cons_succ] at this ⊢
      rw [this]; ring

theorem modifyAll_succ_sum {β : Type} (idx : β → Int) (as : List β) :
    ∀ (v out : List Int), modifyAll idx (fun c => c + 1) v as = some out →
      out.sum = v.sum + (as.length : Int) := by
  induction as with
  | nil =>
    intro v out h
    have : v = out := by simpa [modifyAll] using h
    subst this
    simp
  | cons a t ih =>
    intro v out h
    unfold modifyAll at h
    rw [List.foldlM_cons] at h
    by_cases ha : 0 ≤ idx a ∧ idx a < v.length
    · have hlt : (idx a).toNat < v.length := by omega
      rw [vecModify_eq_set v (idx a) _ ha.1 hlt] at h
      have := ih _ out h
      rw [this, sum_set_add_one v _ hlt]
      simp only [List.length_cons]
      push_cast
      ring
    · rw [vecModify_eq_none v (idx a) _ ha] at h
      cases h

theorem iterate_succ_apply_int (n : Nat) (c : Int) : (fun c : Int => c + 1)^[n] c = c + n := by
  induction n generalizing c with
  | zero => simp
  | succ n ih =>
    rw [Function.iterate_succ_apply, ih]
    push_cast
    ring

/-! ## `computeColorHistogram` -/

theorem computeColorHistogram_eq_modifyAll (pixels : List RGBColor) :
    computeColorHistogram pixels
      = modifyAll binIndex (fun c => c + 1) (List.replicate 512 0) pixels := rfl

theorem BIN_SIZE_eq : BIN_SIZE = 31 := by decide

theorem binIndex_eq_of_nonneg (p : RGBColor) (hr : 0 ≤ p.r) (hg : 0 ≤ p.g) (hb : 0 ≤ p.b) :
    binIndex p = (p.r / 31) * 64 + (p.g / 31) * 8 + p.b / 31 := by
  unfold binIndex
  simp only [BIN_SIZE_eq, NUM_BINS]
  rw [Int.tdiv_eq_ediv hr (by norm_num), Int.tdiv_eq_ediv hg (by norm_num),
    Int.tdiv_eq_ediv hb (by norm_num)]
  ring

/-- What `computeColorHistogram` returns on pixels with channels in `[0, 247]`. -/
theorem computeColorHistogram_spec (pixels : List RGBColor)
    (hch : ∀ p ∈ pixels, ChannelsBelow248 p) :
    (∀ p ∈ pixels, 0 ≤ binIndex p ∧ binIndex p < 512) ∧
    ∃ hist, computeColorHistogram pixels = some hist ∧ hist.length = 512 ∧
      (∀ i : Nat, i < 512 → hist[i]? = some ((pixels.countP
        (fun p => (p.r / 31) * 64 + (p.g / 31) * 8 + p.b / 31 = (i : Int)) : Nat) : Int)) ∧
      hist.sum = (pixels.length : Int) := by
  have hidx : ∀ p ∈ pixels,
      binIndex p = (p.r / 31) * 64 + (p.g / 31) * 8 + p.b / 31 := fun p hp =>
    binIndex_eq_of_nonneg p (hch p hp).1.1 (hch p hp).2.1.1 (hch p hp).2.2.1
  have hrange : ∀ p ∈ pixels, 0 ≤ binIndex p ∧ binIndex p < 512 := by
    intro p hp
    rw [hidx p hp]
    obtain ⟨⟨h1, h2⟩, ⟨h3, h4⟩, h5, h6⟩ := hch p hp
    omega
  refine ⟨hrange, ?_⟩
  obtain ⟨hist, hres, hlen, hget⟩ := modifyAll_eq_some binIndex (fun c : Int => c + 1)
    pixels (List.replicate 512 0) (by
      intro p hp
      simp only [List.length_replicate, Nat.cast_ofNat]
      exact hrange p hp)
  rw [← computeColorHistogram_eq_modifyAll] at hres
  refine ⟨hist, hres, by rw [hlen, List.length_replicate], ?_, ?_⟩
  · intro i hi
    have hcount : pixels.countP (fun p => binIndex p = (i : Int))
        = pixels.countP (fun p => (p.r / 31) * 64 + (p.g / 31) * 8 + p.b / 31 = (i : Int)) := by
      apply List.countP_congr
      intro p hp
      rw [hidx p hp]
    rw [hget i, List.getElem?_replicate, if_pos hi, Option.map_some', iterate_succ_apply_int,
      hcount, zero_add]
  · rw [computeColorHistogram_eq_modifyAll] at hres
    rw [modifyAll_succ_sum binIndex pixels _ hist hres, List.sum_replicate, smul_zero,
      zero_add]

/-! ## `drawBoundingBox` -/

theorem mem_intRange (lo hi v : Int) : v ∈ intRange lo hi ↔ lo ≤ v ∧ v < hi := by
  unfold intRange
  rw [List.mem_map]
  constructor
  · rintro ⟨k, hk, rfl⟩
    rw [List.mem_range] at hk
    omega
  · rintro ⟨h1, h2⟩
    refine ⟨(v - lo).toNat, ?_, ?_⟩
    · rw [List.mem_range]; omega
    · omega

theorem mem_drawIndices (bbox : BoundingBox) (i : Int) :
    i ∈ drawIndices bbox ↔ ∃ y x, (bbox.y ≤ y ∧ y < bbox.y + bbox.height) ∧
      (bbox.x ≤ x ∧ x < bbox.x + bbox.width) ∧ i = y * bbox.width + x := by
  unfold drawIndices
  rw [List.mem_flatten]
  constructor
  · rintro ⟨row, hrow, hi⟩
    rw [List.mem_map] at hrow
    obtain ⟨y, hy, rfl⟩ := hrow
    rw [List.mem_map] at hi
    obtain ⟨x, hx, rfl⟩ := hi
    exact ⟨y, x, (mem_intRange _ _ _).mp hy, (mem_intRange _ _ _).mp hx, rfl⟩
  · rintro ⟨y, x, hy, hx, rfl⟩
    refine ⟨_, List.mem_map.mpr ⟨y, (mem_intRange _ _ _).mpr hy, rfl⟩, ?_⟩
    exact List.mem_map.mpr ⟨x, (mem_intRange _ _ _).mpr hx, rfl⟩

theorem modifyAll_append {α β : Type} (idx : β → Int) (f : α → α) (v : List α)
    (as bs : List β) :
    modifyAll idx f v (as ++ bs) = (modifyAll idx f v as).bind (fun w => modifyAll idx f w bs) := by
  unfold modifyAll
  rw [List.foldlM_append]
  rfl

theorem drawRow_eq_modifyAll (bbox : BoundingBox) (pixels : List RGBColor) (y : Int) :
    drawRow bbox pixels y = modifyAll id paint pixels
      ((intRange bbox.x (bbox.x + bbox.width)).map (fun x => y * bbox.width + x)) := by
  unfold drawRow modifyAll
  rw [List.foldlM_map]
  rfl

theorem drawRows_eq_modifyAll (bbox : BoundingBox) (ys : List Int) :
    ∀ pixels : List RGBColor, ys.foldlM (drawRow bbox) pixels = modifyAll id paint pixels
      (ys.map (fun y =>
        (intRange bbox.x (bbox.x + bbox.width)).map (fun x => y * bbox.width + x))).flatten := by
  induction ys with
  | nil => intro pixels; rfl
  | cons y t ih =>
    intro pixels
    rw [List.foldlM_cons, List.map_cons, List.flatten_cons, modifyAll_append,
      drawRow_eq_modifyAll]
    cases modifyAll id paint pixels
        ((intRange bbox.x (bbox.x + bbox.width)).map (fun x => y * bbox.width + x)) with
    | none => rfl
    | some w => exact ih w

theorem drawBoundingBox_eq_modifyAll (pixels : List RGBColor) (bbox : BoundingBox) :
    drawBoundingBox pixels bbox = modifyAll id paint pixels (drawIndices bbox) :=
  drawRows_eq_modifyAll bbox _ pixels

theorem paint_eq (p : RGBColor) : paint p = ⟨255, 0, 0⟩ := rfl

theorem iterate_paint (n : Nat) (p : RGBColor) :
    paint^[n] p = if n = 0 then p else ⟨255, 0, 0⟩ := by
  cases n with
  | zero => rfl
  | succ n =>
    rw [Function.iterate_succ_apply, paint_eq, if_neg (Nat.succ_ne_zero n)]
    exact Function.iterate_fixed (paint_eq _) n

/-- When every index is in range, `drawBoundingBox`-style painting keeps the length,
paints the listed indices and leaves the others. -/
theorem paintAll_eq_some (is : List Int) (v : List RGBColor)
    (hin : ∀ i ∈ is, 0 ≤ i ∧ i < v.length) :
    ∃ out, modifyAll id paint v is = some out ∧ out.length = v.length ∧
      ∀ j : Nat, out[j]? = if (j : Int) ∈ is then (v[j]?).map (fun _ => ⟨255, 0, 0⟩)
        else v[j]? := by
  obtain ⟨out, hout, hlen, hget⟩ := modifyAll_eq_some id paint is v hin
  refine ⟨out, hout, hlen, ?_⟩
  intro j
  rw [hget j]
  by_cases hj : (j : Int) ∈ is
  · have hpos : 0 < is.countP (fun a => id a = (j : Int)) :=
      List.countP_pos_iff.mpr ⟨_, hj, by simp⟩
    rw [if_pos hj]
    cases v[j]? with
    | none => rfl
    | some p =>
      simp only [Option.map_some', iterate_paint, if_neg (Nat.pos_iff_ne_zero.mp hpos)]
  · have hzero : is.countP (fun a => id a = (j : Int)) = 0 := by
      rw [List.countP_eq_zero]
      intro a ha hja
      apply hj
      have : a = (j : Int) := by simpa using hja
      rw [← this]; exact ha
    rw [if_neg hj, hzero]
    cases v[j]? <;> rfl

theorem modifyAll_some_inRange {α β : Type} (idx : β → Int) (f : α → α) (as : List β)
    (v out : List α) (h : modifyAll idx f v as = some out) :
    ∀ a ∈ as, 0 ≤ idx a ∧ idx a < v.length := by
  intro a ha
  by_contra hna
  rw [modifyAll_eq_none idx f as v ⟨a, ha, hna⟩] at h
  cases h

theorem paintAll_idempotent (is : List Int) (v out : List RGBColor)
    (h : modifyAll id paint v is = some out) : modifyAll id paint out is = some out := by
  have hin := modifyAll_some_inRange id paint is v out h
  obtain ⟨o1, h1, l1, g1⟩ := paintAll_eq_some is v hin
  rw [h] at h1
  cases h1
  obtain ⟨o2, h2, l2, g2⟩ := paintAll_eq_some is out (by rw [l1]; exact hin)
  rw [h2]
  congr 1
  apply List.ext_getElem?
  intro j
  rw [g2 j, g1 j]
  by_cases hj : (j : Int) ∈ is
  · simp only [if_pos hj, Option.map_map]
    cases v[j]? <;> rfl
  · simp only [if_neg hj]

/-! ## Decimal digits -/

theorem digitChar_toNat (d : Nat) (hd : d < 10) : (Nat.digitChar d).toNat = 48 + d := by
  interval_cases d <;> rfl

theorem isdigit_digitChar (d : Nat) (hd : d < 10) : isdigit (Nat.digitChar d) = true := by
  interval_cases d <;> rfl

/-- With enough fuel `Nat.toDigitsCore 10` puts in front of the accumulator a
non-empty block of decimal digits whose value is the number. -/
theorem toDigitsCore_spec (fuel : Nat) :
    ∀ (n : Nat) (ds : List Char), n < fuel →
      ∃ pre, Nat.toDigitsCore 10 fuel n ds = pre ++ ds ∧ pre ≠ [] ∧
        (∀ c ∈ pre, isdigit c = true) ∧
        ∀ a : Nat, pre.foldl (fun acc c => 10 * acc + (c.toNat - 48)) a
          = a * 10 ^ pre.length + n := by
  induction fuel with
  | zero => intro n ds h; omega
  | succ fuel ih =>
    intro n ds hn
    have hmod : n % 10 < 10 := Nat.mod_lt _ (by norm_num)
    by_cases hq : n / 10 = 0
    · refine ⟨[Nat.digitChar (n % 10)], ?_, by simp, ?_, ?_⟩
      · simp only [Nat.toDigitsCore, hq, if_true]
        rfl
      · intro c hc
        rw [List.mem_singleton] at hc
        rw [hc]; exact isdigit_digitChar _ hmod
      · intro a
        simp only [List.foldl_cons, List.foldl_nil, List.length_singleton, pow_one,
          digitChar_toNat _ hmod]
        omega
    · have hlt : n / 10 < fuel := by omega
      obtain ⟨pre, hpre, hne, hdig, hval⟩ := ih (n / 10) (Nat.digitChar (n % 10) :: ds) hlt
      refine ⟨pre ++ [Nat.digitChar (n % 10)], ?_, by simp, ?_, ?_⟩
      · simp only [Nat.toDigitsCore, hq, if_false]
        rw [hpre]; simp
      · intro c hc
        rcases List.mem_append.mp hc with h | h
        · exact hdig c h
        · rw [List.mem_singleton] at h
          rw [h]; exact isdigit_digitChar _ hmod
      · intro a
        rw [List.foldl_append, hval a]
        simp only [List.foldl_cons, List.foldl_nil, List.length_append, List.length_singleton,
          digitChar_toNat _ hmod, pow_succ]
        have : 10 * (n / 10) + n % 10 = n := Nat.div_add_mod n 10
        have e : 48 + n % 10 - 48 = n % 10 := by omega
        rw [e]
        nlinarith

theorem toDigits_spec (n : Nat) :
    Nat.toDigits 10 n ≠ [] ∧ (∀ c ∈ Nat.toDigits 10 n, isdigit c = true) ∧
      decimalValue (Nat.toDigits 10 n) = n := by
  obtain ⟨pre, hpre, hne, hdig, hval⟩ := toDigitsCore_spec (n + 1) n [] (Nat.lt_succ_self n)
  have h : Nat.toDigits 10 n = pre := by
    unfold Nat.toDigits
    rw [hpre, List.append_nil]
  rw [h]
  refine ⟨hne, hdig, ?_⟩
  unfold decimalValue
  rw [hval 0]
  simp

/-! ## Reading back what `saveImage` writes -/

theorem isspace_of_isdigit {c : Char} (h : isdigit c = true) : isspace c = false := by
  unfold isdigit at h
  unfold isspace
  simp only [Bool.and_eq_true, decide_eq_true_eq] at h
  simp only [Bool.or_eq_false_iff, Bool.and_eq_false_imp, decide_eq_false_iff_not,
    decide_eq_true_eq]
  omega

theorem isdigit_of_isspace {c : Char} (h : isspace c = true) : isdigit c = false := by
  cases hd : isdigit c with
  | false => rfl
  | true => rw [isspace_of_isdigit hd] at h; cases h

theorem ne_sign_of_isdigit {c : Char} (h : isdigit c = true) : c ≠ '-' ∧ c ≠ '+' := by
  constructor <;> (rintro rfl; revert h; decide)

theorem takeWhile_append_stop {p : Char → Bool} (ds : List Char) (x : Char) (r : List Char)
    (hds : ∀ c ∈ ds, p c = true) (hx : p x = false) :
    (ds ++ x :: r).takeWhile p = ds ∧ (ds ++ x :: r).dropWhile p = x :: r := by
  induction ds with
  | nil => simp [List.takeWhile, List.dropWhile, hx]
  | cons d t ih =>
    have hd := hds d (List.mem_cons_self _ _)
    have ht := ih (fun c hc => hds c (List.mem_cons_of_mem _ hc))
    simp [List.takeWhile, List.dropWhile, hd, ht.1, ht.2]

/-- Reading an `int` written in decimal after one white-space character and before
another gives the number back and stops in front of the second. -/
theorem readInt_shown (s : IStream) (cur : Int) (w c : Char) (n : Nat) (r : List Char)
    (heof : s.eofbit = false) (hfail : s.failbit = false)
    (hw : isspace w = true) (hc : isspace c = true) (hn : n ≤ 2147483647)
    (hrest : s.rest = w :: (Nat.toDigits 10 n ++ c :: r)) :
    readInt s cur
      = (⟨(Nat.toDigits 10 n).reverse ++ w :: s.consumed, c :: r, false, false⟩, (n : Int)) := by
  obtain ⟨hne, hdig, hval⟩ := toDigits_spec n
  obtain ⟨d0, D, hD⟩ := List.exists_cons_of_ne_nil hne
  have hd0 : isdigit d0 = true := hdig d0 (by rw [hD]; exact List.mem_cons_self _ _)
  have hd0s : isspace d0 = false := isspace_of_isdigit hd0
  have hsign := ne_sign_of_isdigit hd0
  have hcd : isdigit c = false := isdigit_of_isspace hc
  have htw := takeWhile_append_stop (Nat.toDigits 10 n) c r hdig hcd
  have hsentry : sentry s
      = (⟨w :: s.consumed, Nat.toDigits 10 n ++ c :: r, false, false⟩, true) := by
    unfold sentry IStream.good
    rw [heof, hfail, hrest, hD]
    simp [List.dropWhile, List.takeWhile, hw, hd0s]
  unfold readInt
  rw [hsentry]
  have hhead : (Nat.toDigits 10 n ++ c :: r).head? = some d0 := by rw [hD]; rfl
  simp only [hhead, Option.some.injEq, hsign.1, hsign.2, or_self, if_false, htw.1, htw.2,
    List.isEmpty_cons, List.reverse_nil, List.nil_append]
  have hemp : (Nat.toDigits 10 n).isEmpty = false := by rw [hD]; rfl
  rw [hemp]
  have h1 : ¬ ((n : Nat) : Int) > 2147483647 := by omega
  have h2 : ¬ ((n : Nat) : Int) < -2147483648 := by omega
  simp only [Bool.false_eq_true, if_false, hval, h1, h2, List.append_nil]

theorem showInt_of_nonneg (n : Int) (hn : 0 ≤ n) : showInt n = Nat.toDigits 10 n.toNat := by
  unfold showInt
  rw [if_neg (by omega)]

theorem isspace_space : isspace ' ' = true := by decide

theorem isspace_newline : isspace '\n' = true := by decide

theorem readPixel_shown (s : IStream) (cur p : RGBColor) (tail : List Char)
    (heof : s.eofbit = false) (hfail : s.failbit = false) (hp : ChannelsInRange p)
    (hrest : s.rest = '\n' :: (showPixel p ++ tail)) :
    ∃ cons, readPixel s cur = (⟨cons, '\n' :: tail, false, false⟩, p) := by
  obtain ⟨⟨hr0, hr1⟩, ⟨hg0, hg1⟩, hb0, hb1⟩ := hp
  have hrest2 : s.rest = '\n' :: (Nat.toDigits 10 p.r.toNat ++ ' ' ::
      (Nat.toDigits 10 p.g.toNat ++ ' ' :: (Nat.toDigits 10 p.b.toNat ++ '\n' :: tail))) := by
    rw [hrest]
    unfold showPixel
    rw [showInt_of_nonneg _ hr0, showInt_of_nonneg _ hg0, showInt_of_nonneg _ hb0]
    simp
  have h1 := readInt_shown s cur.r '\n' ' ' p.r.toNat _ heof hfail isspace_newline
    isspace_space (by omega) hrest2
  have h2 := readInt_shown (readInt s cur.r).1 cur.g ' ' ' ' p.g.toNat _
    (by rw [h1]) (by rw [h1]) isspace_space isspace_space (by omega) (by rw [h1])
  have h3 := readInt_shown (readInt (readInt s cur.r).1 cur.g).1 cur.b ' ' '\n' p.b.toNat _
    (by rw [h2]) (by rw [h2]) isspace_space isspace_newline (by omega) (by rw [h2])
  refine ⟨(Nat.toDigits 10 p.b.toNat).reverse ++ ' ' :: ((Nat.toDigits 10 p.g.toNat).reverse
    ++ ' ' :: ((Nat.toDigits 10 p.r.toNat).reverse ++ '\n' :: s.consumed)), ?_⟩
  unfold readPixel
  simp only [h3]
  rw [h2, h1]
  simp only [Int.toNat_of_nonneg hr0, Int.toNat_of_nonneg hg0, Int.toNat_of_nonneg hb0]

theorem readPixels_loop (pixels : List RGBColor) :
    ∀ (s : IStream) (acc : List RGBColor) (uninit : Nat → RGBColor) (tail : List Char),
      s.eofbit = false → s.failbit = false → (∀ p ∈ pixels, ChannelsInRange p) →
      s.rest = '\n' :: ((pixels.map showPixel).flatten ++ tail) →
      ((List.range pixels.length).foldl
        (fun (st : IStream × List RGBColor) i =>
          ((readPixel st.1 (uninit i)).1, st.2 ++ [(readPixel st.1 (uninit i)).2]))
        (s, acc)).2 = acc ++ pixels := by
  induction pixels with
  | nil => intro s acc uninit tail _ _ _ _; simp
  | cons p t ih =>
    intro s acc uninit tail heof hfail hch hrest
    have hrest2 : s.rest = '\n' :: (showPixel p ++ ((t.map showPixel).flatten ++ tail)) := by
      rw [hrest]; simp
    obtain ⟨cons, hread⟩ := readPixel_shown s (uninit 0) p _ heof hfail
      (hch p (List.mem_cons_self _ _)) hrest2
    rw [List.length_cons, List.range_succ_eq_map, List.foldl_cons, List.foldl_map, hread]
    have := ih ⟨cons, '\n' :: ((t.map showPixel).flatten ++ tail), false, false⟩ (acc ++ [p])
      (fun i => uninit (Nat.succ i)) tail rfl rfl
      (fun q hq => hch q (List.mem_cons_of_mem _ hq)) rfl
    rw [this]
    simp

theorem readPixels_shown (uninit : Nat → RGBColor) (pixels : List RGBColor) (s : IStream)
    (heof : s.eofbit = false) (hfail : s.failbit = false)
    (hch : ∀ p ∈ pixels, ChannelsInRange p)
    (hrest : s.rest = '\n' :: (pixels.map showPixel).flatten) :
    readPixels uninit pixels.length s = pixels := by
  unfold readPixels
  rw [readPixels_loop pixels s [] uninit [] heof hfail hch (by rw [hrest]; simp)]
  simp

/-- The round trip: `loadImage` reads back what `saveImage` writes. -/
theorem loadImage_saveImageText (u : LoadUninit) (pixels : List RGBColor) (width height : Int)
    (hch : ∀ p ∈ pixels, ChannelsInRange p)
    (hw : 0 ≤ width ∧ width ≤ 2147483647) (hh : 0 ≤ height ∧ height ≤ 2147483647)
    (hlen : width * height = (pixels.length : Int)) :
    loadImage u (some (saveImageText pixels width height)) = Run.ok pixels := by
  have htext : saveImageText pixels width height
      = 'P' :: '3' :: '\n' :: (Nat.toDigits 10 width.toNat ++ ' ' ::
        (Nat.toDigits 10 height.toNat ++ '\n' ::
          (Nat.toDigits 10 255 ++ '\n' :: (pixels.map showPixel).flatten))) := by
    unfold saveImageText
    rw [showInt_of_nonneg _ hw.1, showInt_of_nonneg _ hh.1,
      showInt_of_nonneg MAX_COLOR (by decide)]
    simp [MAX_COLOR]
  have hmagic : readString ⟨[], saveImageText pixels width height, false, false⟩ []
      = (⟨['3', 'P'], '\n' :: (Nat.toDigits 10 width.toNat ++ ' ' ::
        (Nat.toDigits 10 height.toNat ++ '\n' ::
          (Nat.toDigits 10 255 ++ '\n' :: (pixels.map showPixel).flatten))), false, false⟩,
        ['P', '3']) := by
    rw [htext]
    simp [readString, sentry, IStream.good, List.dropWhile, List.takeWhile, isspace]
  obtain ⟨c1, h1⟩ : ∃ c1, readInt ⟨['3', 'P'], '\n' :: (Nat.toDigits 10 width.toNat ++ ' ' ::
        (Nat.toDigits 10 height.toNat ++ '\n' ::
          (Nat.toDigits 10 255 ++ '\n' :: (pixels.map showPixel).flatten))), false, false⟩ u.width
      = (⟨c1, ' ' :: (Nat.toDigits 10 height.toNat ++ '\n' ::
          (Nat.toDigits 10 255 ++ '\n' :: (pixels.map showPixel).flatten)), false, false⟩,
        ((width.toNat : Nat) : Int)) :=
    ⟨_, readInt_shown _ u.width '\n' ' ' width.toNat _ rfl rfl isspace_newline isspace_space
      (by omega) rfl⟩
  obtain ⟨c2, h2⟩ : ∃ c2, readInt ⟨c1, ' ' :: (Nat.toDigits 10 height.toNat ++ '\n' ::
          (Nat.toDigits 10 255 ++ '\n' :: (pixels.map showPixel).flatten)), false, false⟩ u.height
      = (⟨c2, '\n' :: (Nat.toDigits 10 255 ++ '\n' :: (pixels.map showPixel).flatten),
          false, false⟩, ((height.toNat : Nat) : Int)) :=
    ⟨_, readInt_shown _ u.height ' ' '\n' height.toNat _ rfl rfl isspace_space isspace_newline
      (by omega) rfl⟩
  obtain ⟨c3, h3⟩ : ∃ c3, readInt ⟨c2, '\n' :: (Nat.toDigits 10 255 ++ '\n' ::
          (pixels.map showPixel).flatten), false, false⟩ u.max_color
      = (⟨c3, '\n' :: (pixels.map showPixel).flatten, false, false⟩, ((255 : Nat) : Int)) :=
    ⟨_, readInt_shown _ u.max_color '\n' '\n' 255 _ rfl rfl isspace_newline isspace_newline
      (by norm_num) rfl⟩
  have hcount : (((width.toNat : Nat) : Int) * ((height.toNat : Nat) : Int)).toNat
      = pixels.length := by
    rw [Int.toNat_of_nonneg hw.1, Int.toNat_of_nonneg hh.1, hlen]
    exact Int.toNat_natCast _
  have hpx := readPixels_shown u.pixel pixels
    ⟨c3, '\n' :: (pixels.map showPixel).flatten, false, false⟩ rfl rfl hch rfl
  have hget : get ⟨c3, '\n' :: (pixels.map showPixel).flatten, false, false⟩
      = (⟨'\n' :: c3, (pixels.map showPixel).flatten, false, false⟩, some '\n') := rfl
  have hskip : ∀ (fuel : Nat) (s : IStream),
      skipComments (fuel + 1) s (some '\n') = (s, some '\n') := by
    intro fuel s
    have hne : (some '\n' : Option Char) ≠ some COMMENT_CHAR := by decide
    simp only [skipComments, if_neg hne]
  have hunget : unget ⟨'\n' :: c3, (pixels.map showPixel).flatten, false, false⟩
      = ⟨c3, '\n' :: (pixels.map showPixel).flatten, false, false⟩ := rfl
  have hmax : ¬ ((255 : Nat) : Int) ≠ MAX_COLOR := by decide
  unfold loadImage
  simp only [hmagic, h1, h2, h3, hcount, hget, hskip, hunget, hpx, hmax, ne_eq,
    not_true_eq_false, if_false]

/-! ## The comment loop ends by its own condition -/

theorem ignoreLine_rest_length (s : IStream) :
    (ignoreLine s).rest.length ≤ s.rest.length := by
  unfold ignoreLine
  split
  · have hsub := (List.dropWhile_sublist (fun c => decide (c ≠ '\n')) (l := s.rest)).length_le
    split
    · simp
    · rename_i nl r heq
      rw [heq] at hsub
      simp only [List.length_cons] at hsub ⊢
      omega
  · exact le_refl _

theorem get_rest_length (s : IStream) (c : Char) (h : (get s).2 = some c) :
    (get s).1.rest.length < s.rest.length := by
  unfold get at h ⊢
  by_cases hg : s.good = true
  · rw [if_pos hg] at h ⊢
    cases hr : s.rest with
    | nil => rw [hr] at h; simp at h
    | cons d r => simp
  · rw [if_neg hg] at h
    simp at h

/-- With `fuel` above the number of characters left, `skipComments` stops because
`comment_char` is not `COMMENT_CHAR`, never because the fuel is used up. -/
theorem skipComments_fuel (fuel : Nat) :
    ∀ (s : IStream) (c : Option Char), s.rest.length < fuel →
      (skipComments fuel s c).2 ≠ some COMMENT_CHAR := by
  induction fuel with
  | zero => intro s c h; omega
  | succ fuel ih =>
    intro s c hlt
    unfold skipComments
    by_cases hc : c = some COMMENT_CHAR
    · rw [if_pos hc]
      cases hg : (get (ignoreLine s)).2 with
      | none =>
        cases fuel with
        | zero => simp [skipComments]
        | succ f => simp [skipComments]
      | some d =>
        have h1 := get_rest_length (ignoreLine s) d hg
        have h2 := ignoreLine_rest_length s
        rw [← hg]
        exact ih _ _ (by omega)
    · rw [if_neg hc]
      exact hc

/-! ## The pipeline of `main` -/

theorem computeColorHistogram_length (pixels : List RGBColor)
    (hch : ∀ p ∈ pixels, ChannelsBelow248 p) :
    ∃ hist, computeColorHistogram pixels = some hist ∧ hist.length = 512 := by
  obtain ⟨_, hist, hres, hl, _, _⟩ := computeColorHistogram_spec pixels hch
  exact ⟨hist, hres, hl⟩

theorem drawBoundingBox_of_inRange (pixels : List RGBColor) (bbox : BoundingBox)
    (hin : ∀ i ∈ drawIndices bbox, 0 ≤ i ∧ i < pixels.length) :
    ∃ out, drawBoundingBox pixels bbox = some out ∧ out.length = pixels.length := by
  obtain ⟨out, hout, hlen, _⟩ := paintAll_eq_some (drawIndices bbox) pixels hin
  exact ⟨out, by rw [drawBoundingBox_eq_modifyAll]; exact hout, hlen⟩

/-- A run of `main` in which every step succeeds writes the drawn buffer under the
width and height of the box returned by `nearestNeighbor`. -/
theorem main_eq_of_steps (uExample uTest : LoadUninit) (uBox : BoundingBox)
    (exampleFile testFile : Option (List Char)) (example_pixels test_pixels : List RGBColor)
    (color_histogram test_histogram : List Int) (bbox : BoundingBox) (drawn : List RGBColor)
    (hex : loadImage uExample exampleFile = Run.ok example_pixels)
    (hh1 : computeColorHistogram example_pixels = some color_histogram)
    (htest : loadImage uTest testFile = Run.ok test_pixels)
    (hh2 : computeColorHistogram test_pixels = some test_histogram)
    (hnn : nearestNeighbor uBox test_histogram [⟨⟨60, 40, 100, 80⟩, color_histogram⟩]
      = some bbox)
    (hdraw : drawBoundingBox test_pixels bbox = some drawn) :
    main uExample uTest uBox exampleFile testFile true
      = some (Run.ok (saveImageText drawn bbox.width bbox.height)) := by
  unfold main
  simp only [hex, hh1, htest, hh2, hnn, hdraw]
  rfl

/-! ## Claims -/

set_option maxRecDepth 100000 in
/-- C1 (fails on the code). The pixel `(31, 0, 0)` has its channels in `[0, 255]` and
belongs to bin `0` under the bin width 32 of the specification, yet
`computeColorHistogram` counts it at index `64` and leaves index `0` at zero: the
code divides by `BIN_SIZE = 255 / 8 = 31`. -/
theorem computeColorHistogram_width_31_not_32 :
    (∀ p ∈ [(⟨31, 0, 0⟩ : RGBColor)], ChannelsInRange p) ∧
    BIN_SIZE = 31 ∧
    specBinCount [⟨31, 0, 0⟩] 0 = 1 ∧ specBinCount [⟨31, 0, 0⟩] 64 = 0 ∧
    computeColorHistogram [⟨31, 0, 0⟩] = some ((List.replicate 512 0).set 64 1) ∧
    ((List.replicate 512 (0 : Int)).set 64 1)[0]? = some 0 ∧
    ((List.replicate 512 (0 : Int)).set 64 1)[64]? = some 1 := by
  decide

set_option maxRecDepth 100000 in
/-- C2 (fails on the code). For the single pixel `(255, 0, 0)`, whose channels lie in
`[0, 255]`, the bin index is `512` and the increment `histogram[512]++` is outside the
512 entries: `computeColorHistogram` returns no histogram whose entries sum to one. -/
theorem computeColorHistogram_sum_lost :
    ChannelsInRange ⟨255, 0, 0⟩ ∧ binIndex ⟨255, 0, 0⟩ = 512 ∧
    computeColorHistogram [⟨255, 0, 0⟩] = none ∧
    ¬ ∃ h, computeColorHistogram [⟨255, 0, 0⟩] = some h ∧ h.sum = 1 := by
  refine ⟨by decide, by decide, by decide, ?_⟩
  rintro ⟨h, hh, _⟩
  have hn : computeColorHistogram [⟨255, 0, 0⟩] = none := by decide
  rw [hn] at hh
  cases hh

set_option maxRecDepth 100000 in
/-- C3 (fails on the code). The channel value `255` gives the per-channel bin
`255 / 31 = 8`, outside `[0, 7]`; the pixel `(255, 255, 255)` gives the joint index
`584`, outside `[0, 512)`, and the write `histogram[584]++` on the 512-entry histogram
is out of range. -/
theorem binIndex_out_of_range :
    ChannelsInRange ⟨255, 255, 255⟩ ∧ Int.tdiv 255 BIN_SIZE = 8 ∧
    binIndex ⟨255, 255, 255⟩ = 584 ∧
    histogramStep (List.replicate 512 0) ⟨255, 255, 255⟩ = none := by
  decide

/-- C4. For a query histogram and a non-empty sequence of training examples whose
histograms have the query's length, `nearestNeighbor` returns the box of an example
of the sequence whose distance to the query (the binary64 value `histogramDistance`
returns) is at most that of every example of the sequence; and when the sequence has
two examples, the second strictly closer than the first, it returns the box of the
second. -/
theorem nearestNeighbor_returns_closest (uninit : BoundingBox) (q : List Int)
    (exs : List TrainingExample) (hne : exs ≠ [])
    (hex : ∀ e ∈ exs, e.color_histogram.length = q.length) :
    (∃ e ∈ exs, nearestNeighbor uninit q exs = some e.bbox ∧
      ∃ d, histogramDistanceF64 q e.color_histogram = some d ∧
        ∀ e1 ∈ exs, ∃ d1, histogramDistanceF64 q e1.color_histogram = some d1 ∧ d ≤ d1) ∧
    (∀ e1 e2 d1 d2, exs = [e1, e2] →
      histogramDistanceF64 q e1.color_histogram = some d1 →
      histogramDistanceF64 q e2.color_histogram = some d2 → d2 < d1 →
      nearestNeighbor uninit q exs = some e2.bbox) := by
  obtain ⟨pre, e, suf, d, hdec, hres, hd, _, hmin⟩ := nearestNeighbor_scan uninit q exs hne
    (fun e he => le_of_eq (hex e he).symm)
  have hmem : e ∈ exs := by rw [hdec]; simp
  refine ⟨⟨e, hmem, hres, d, hd, hmin⟩, ?_⟩
  intro e1 e2 d1 d2 h12 h1 h2 hlt
  have he2 : e2 ∈ exs := by rw [h12]; simp
  have hne1 : e ≠ e1 := by
    intro h
    obtain ⟨d3, hd3, hle⟩ := hmin e2 he2
    rw [h2] at hd3
    rw [h, h1] at hd
    have e1eq := Option.some.inj hd
    have e2eq := Option.some.inj hd3
    omega
  rw [h12] at hmem
  rcases List.mem_cons.mp hmem with h | h
  · exact absurd h hne1
  · rw [List.mem_singleton] at h
    rw [hres, h]

set_option maxRecDepth 100000 in
/-- A concrete instance of C4, the scenario of the specification: the query
`[0, 0]` and two templates at distances `5.0` and `3.0` (held as `5 * 2^52` and
`3 * 2^52`); the second box is returned. -/
theorem nearestNeighbor_returns_closest_witness :
    ([⟨⟨1, 1, 1, 1⟩, [3, 4]⟩, ⟨⟨2, 2, 2, 2⟩, [3, 0]⟩] : List TrainingExample) ≠ [] ∧
    (∀ e ∈ ([⟨⟨1, 1, 1, 1⟩, [3, 4]⟩, ⟨⟨2, 2, 2, 2⟩, [3, 0]⟩] : List TrainingExample),
      e.color_histogram.length = [0, (0 : Int)].length) ∧
    histogramDistanceF64 [0, 0] [3, 4] = some (5 * 2 ^ 52) ∧
    histogramDistanceF64 [0, 0] [3, 0] = some (3 * 2 ^ 52) ∧
    nearestNeighbor ⟨0, 0, 0, 0⟩ [0, 0] [⟨⟨1, 1, 1, 1⟩, [3, 4]⟩, ⟨⟨2, 2, 2, 2⟩, [3, 0]⟩]
      = some ⟨2, 2, 2, 2⟩ :=
  have h1 : histogramDistanceF64 [0, 0] [3, 4] = some (5 * 2 ^ 52) := by decide
  have h2 : histogramDistanceF64 [0, 0] [3, 0] = some (3 * 2 ^ 52) := by decide
  ⟨by decide, by decide, h1, h2,
    (nearestNeighbor_returns_closest ⟨0, 0, 0, 0⟩ [0, 0]
      [⟨⟨1, 1, 1, 1⟩, [3, 4]⟩, ⟨⟨2, 2, 2, 2⟩, [3, 0]⟩]
      (by decide) (by decide)).2 _ _ _ _ rfl h1 h2 (by decide)⟩

/-- C5, as stated, fails on the code: for the query `[1]` and two examples with the
same (empty) histogram and different boxes, `histogramDistance` reads
`histogram2[0]` out of range and no box of the first example is returned. -/
theorem nearestNeighbor_tie_short_histograms :
    ([⟨⟨1, 1, 1, 1⟩, []⟩, ⟨⟨2, 2, 2, 2⟩, []⟩] : List TrainingExample) ≠ [] ∧
    histogramDistanceF64 [1] [] = none ∧
    nearestNeighbor ⟨0, 0, 0, 0⟩ [1] [⟨⟨1, 1, 1, 1⟩, []⟩, ⟨⟨2, 2, 2, 2⟩, []⟩] = none ∧
    nearestNeighbor ⟨0, 0, 0, 0⟩ [1] [⟨⟨1, 1, 1, 1⟩, []⟩, ⟨⟨2, 2, 2, 2⟩, []⟩]
      ≠ some ⟨1, 1, 1, 1⟩ := by
  decide

/-- C5, amended. For a query histogram and a sequence of training examples whose
histograms are at least as long as the query, when the example `e` attains the
minimum distance to the query and no example before it does, `nearestNeighbor`
returns the box of `e`; and for two examples with identical histograms it returns
the box of the first. -/
theorem nearestNeighbor_tie_first (uninit : BoundingBox) (q : List Int)
    (exs : List TrainingExample)
    (hlen : ∀ e ∈ exs, q.length ≤ e.color_histogram.length) :
    (∀ pre e suf d, exs = pre ++ e :: suf →
      histogramDistanceF64 q e.color_histogram = some d →
      (∀ e1 ∈ exs, ∀ d1, histogramDistanceF64 q e1.color_histogram = some d1 → d ≤ d1) →
      (∀ e1 ∈ pre, histogramDistanceF64 q e1.color_histogram ≠ some d) →
      nearestNeighbor uninit q exs = some e.bbox) ∧
    (∀ e1 e2, exs = [e1, e2] → e1.color_histogram = e2.color_histogram →
      nearestNeighbor uninit q exs = some e1.bbox) := by
  have hgen : ∀ pre e suf d, exs = pre ++ e :: suf →
      histogramDistanceF64 q e.color_histogram = some d →
      (∀ e1 ∈ exs, ∀ d1, histogramDistanceF64 q e1.color_histogram = some d1 → d ≤ d1) →
      (∀ e1 ∈ pre, histogramDistanceF64 q e1.color_histogram ≠ some d) →
      nearestNeighbor uninit q exs = some e.bbox := by
    intro pre e suf d hdec hde hmin hfirst
    have hne : exs ≠ [] := by rw [hdec]; simp
    obtain ⟨pre0, e0, suf0, d0, hdec0, hres, hd0, hpre0, hmin0⟩ :=
      nearestNeighbor_scan uninit q exs hne hlen
    have hmem : e ∈ exs := by rw [hdec]; simp
    have hmem0 : e0 ∈ exs := by rw [hdec0]; simp
    -- the two minima have the same distance
    have h1 : d ≤ d0 := hmin e0 hmem0 d0 hd0
    have h2 : d0 ≤ d := by
      obtain ⟨d1, hd1, hle⟩ := hmin0 e hmem
      rw [hde] at hd1
      rw [Option.some.inj hd1]; exact hle
    have heq : d0 = d := le_antisymm h2 h1
    rw [hres]
    rw [hdec0] at hdec
    rcases List.append_eq_append_iff.mp hdec with ⟨a, hpa, hsa⟩ | ⟨c, hpc, hsc⟩
    · -- `pre = pre0 ++ a`
      cases a with
      | nil =>
        simp only [List.nil_append, List.cons.injEq] at hsa
        rw [hsa.1]
      | cons x a =>
        exfalso
        simp only [List.cons_append, List.cons.injEq] at hsa
        have hx : e0 ∈ pre := by rw [hpa, hsa.1]; simp
        apply hfirst e0 hx
        rw [hd0, heq]
    · -- `pre0 = pre ++ c`
      cases c with
      | nil =>
        simp only [List.nil_append, List.cons.injEq] at hsc
        rw [hsc.1]
      | cons x c =>
        exfalso
        simp only [List.cons_append, List.cons.injEq] at hsc
        have hx : e ∈ pre0 := by rw [hpc, hsc.1]; simp
        obtain ⟨d1, hd1, hlt⟩ := hpre0 e hx
        rw [hde] at hd1
        have := Option.some.inj hd1
        omega
  refine ⟨hgen, ?_⟩
  intro e1 e2 h12 hh
  have he1 : e1 ∈ exs := by rw [h12]; simp
  obtain ⟨d, hd1, _⟩ := histogramDistanceF64_eq_some q e1.color_histogram (hlen e1 he1)
  refine hgen [] e1 [e2] d (by simpa using h12) hd1 ?_ (by simp)
  intro e he d1 hd1e
  rw [h12] at he
  have hsame : histogramDistanceF64 q e.color_histogram = some d := by
    rcases List.mem_cons.mp he with h | h
    · rw [h]; exact hd1
    · rw [List.mem_singleton] at h
      rw [h, ← hh]; exact hd1
  rw [hsame] at hd1e
  exact le_of_eq (Option.some.inj hd1e)

set_option maxRecDepth 100000 in
/-- A concrete instance of the amended C5: the query `[0, 0]` and the histograms
`[67108864, 1]` and `[67108864, 0]`, whose sums of squares `2^52 + 1` and `2^52` have
the same binary64 square root `2^26` (held as `2^78`); the first box is returned. -/
theorem nearestNeighbor_tie_first_witness :
    (∀ e ∈ ([⟨⟨1, 1, 1, 1⟩, [67108864, 1]⟩, ⟨⟨2, 2, 2, 2⟩, [67108864, 0]⟩] :
        List TrainingExample), [0, (0 : Int)].length ≤ e.color_histogram.length) ∧
    histogramDistanceF64 [0, 0] [67108864, 1] = some (2 ^ 78) ∧
    histogramDistanceF64 [0, 0] [67108864, 0] = some (2 ^ 78) ∧
    nearestNeighbor ⟨0, 0, 0, 0⟩ [0, 0]
        [⟨⟨1, 1, 1, 1⟩, [67108864, 1]⟩, ⟨⟨2, 2, 2, 2⟩, [67108864, 0]⟩]
      = some ⟨1, 1, 1, 1⟩ :=
  have h1 : histogramDistanceF64 [0, 0] [67108864, 1] = some (2 ^ 78) := by decide
  have h2 : histogramDistanceF64 [0, 0] [67108864, 0] = some (2 ^ 78) := by decide
  ⟨by decide, h1, h2,
    (nearestNeighbor_tie_first ⟨0, 0, 0, 0⟩ [0, 0]
      [⟨⟨1, 1, 1, 1⟩, [67108864, 1]⟩, ⟨⟨2, 2, 2, 2⟩, [67108864, 0]⟩] (by decide)).1
      [] ⟨⟨1, 1, 1, 1⟩, [67108864, 1]⟩ [⟨⟨2, 2, 2, 2⟩, [67108864, 0]⟩] (2 ^ 78) rfl h1
      (by
        intro e he d1 hd1
        rcases List.mem_cons.mp he with h | h
        · rw [h, h1] at hd1
          exact le_of_eq (Option.some.inj hd1)
        · rw [List.mem_singleton] at h
          rw [h, h2] at hd1
          exact le_of_eq (Option.some.inj hd1))
      (by simp)⟩

/-- C6 (fails on the code). On an empty sequence of training examples the loop of
`nearestNeighbor` makes no iteration and the function returns `best_bbox` as it was
declared, uninitialised: a bounding box is returned and no error is signalled. -/
theorem nearestNeighbor_empty_returns_uninit (uninit : BoundingBox) (q : List Int) :
    nearestNeighbor uninit q [] = some uninit := rfl

/-- C7 (fails on the code). A 3x3 image of black pixels and the box
`(x=1, y=1, width=2, height=2)`, which lies inside the image: `drawBoundingBox`
indexes with the box width as stride and paints the indices `3, 4, 5, 6`; the
positions of the box are the row-major indices `4, 5, 7, 8`. -/
theorem drawBoundingBox_box_stride :
    drawBoundingBox (List.replicate 9 ⟨0, 0, 0⟩) ⟨1, 1, 2, 2⟩
      = some [⟨0, 0, 0⟩, ⟨0, 0, 0⟩, ⟨0, 0, 0⟩,
              ⟨255, 0, 0⟩, ⟨255, 0, 0⟩, ⟨255, 0, 0⟩,
              ⟨255, 0, 0⟩, ⟨0, 0, 0⟩, ⟨0, 0, 0⟩] := by
  decide

/-- C8 (fails on the code). On a 2x2 image of blue pixels, the box
`(x=0, y=0, width=3, height=2)` makes `drawBoundingBox` access an index outside
`[0, 4)`, and the box `(x=1, y=0, width=2, height=1)` makes it paint index `2`,
the position `(0, 1)` of the image, which is outside the box. -/
theorem drawBoundingBox_no_clipping :
    drawBoundingBox (List.replicate 4 ⟨0, 0, 255⟩) ⟨0, 0, 3, 2⟩ = none ∧
    drawBoundingBox (List.replicate 4 ⟨0, 0, 255⟩) ⟨1, 0, 2, 1⟩
      = some [⟨0, 0, 255⟩, ⟨255, 0, 0⟩, ⟨255, 0, 0⟩, ⟨0, 0, 255⟩] := by
  decide

set_option maxRecDepth 100000 in
/-- C9 (fails on the code, in its last part). On the 4x4 all-blue scenario the
histogram of the 16 pixels `(0, 0, 255)` has the single non-zero entry `16` (at
index `8`), `nearestNeighbor` over the single template returns its box
`(1, 1, 2, 2)`, and `drawBoundingBox` paints the indices `3, 4, 5, 6` instead of
`5, 6, 9, 10`. -/
theorem end_to_end_blue_4x4 (uninit : BoundingBox) :
    computeColorHistogram (List.replicate 16 ⟨0, 0, 255⟩)
      = some ((List.replicate 512 0).set 8 16) ∧
    nearestNeighbor uninit ((List.replicate 512 0).set 8 16)
      [⟨⟨1, 1, 2, 2⟩, (List.replicate 512 0).set 8 16⟩] = some ⟨1, 1, 2, 2⟩ ∧
    drawBoundingBox (List.replicate 16 ⟨0, 0, 255⟩) ⟨1, 1, 2, 2⟩
      = some [⟨0, 0, 255⟩, ⟨0, 0, 255⟩, ⟨0, 0, 255⟩, ⟨255, 0, 0⟩,
              ⟨255, 0, 0⟩, ⟨255, 0, 0⟩, ⟨255, 0, 0⟩, ⟨0, 0, 255⟩,
              ⟨0, 0, 255⟩, ⟨0, 0, 255⟩, ⟨0, 0, 255⟩, ⟨0, 0, 255⟩,
              ⟨0, 0, 255⟩, ⟨0, 0, 255⟩, ⟨0, 0, 255⟩, ⟨0, 0, 255⟩] := by
  exact ⟨by decide, nearestNeighbor_single uninit _ _ (le_refl _), by decide⟩

/-- C10. For histograms of equal length `histogramDistance a b` and
`histogramDistance b a` are the same real number, the square root of the sum of the
squared element-wise differences. -/
theorem histogramDistance_symmetric (a b : List Int) (hlen : a.length = b.length) :
    histogramDistance a b = histogramDistance b a ∧
    histogramDistance a b = some (Real.sqrt ((sumSqDiff a b : Int) : ℝ)) := by
  rw [histogramDistance_of_sq (histogramDistanceSq_eq a b (le_of_eq hlen)),
    histogramDistance_of_sq (histogramDistanceSq_eq b a (le_of_eq hlen.symm)),
    sumSqDiff_comm b a]
  exact ⟨rfl, rfl⟩

/-- A concrete instance of C10: the histograms `[3, 0, 2]` and `[1, 4, 2]`. -/
theorem histogramDistance_symmetric_witness :
    [3, 0, 2].length = [1, 4, (2 : Int)].length ∧
    (histogramDistance [3, 0, 2] [1, 4, 2] = histogramDistance [1, 4, 2] [3, 0, 2] ∧
     histogramDistance [3, 0, 2] [1, 4, 2]
       = some (Real.sqrt ((sumSqDiff [3, 0, 2] [1, 4, 2] : Int) : ℝ))) :=
  ⟨by decide, histogramDistance_symmetric [3, 0, 2] [1, 4, 2] (by decide)⟩

/-- C11. For histograms of equal length `histogramDistance a b` is defined and
non-negative, it is zero exactly when `a` and `b` are equal element by element, and
`histogramDistance a a` is zero. -/
theorem histogramDistance_nonneg_zero_iff (a b : List Int) (hlen : a.length = b.length) :
    (∃ d, histogramDistance a b = some d ∧ 0 ≤ d ∧ (d = 0 ↔ a = b)) ∧
    histogramDistance a a = some 0 := by
  have hnn : (0 : ℝ) ≤ ((sumSqDiff a b : Int) : ℝ) := by
    exact_mod_cast sumSqDiff_nonneg a b
  refine ⟨⟨_, histogramDistance_of_sq (histogramDistanceSq_eq a b (le_of_eq hlen)),
    Real.sqrt_nonneg _, ?_⟩, ?_⟩
  · rw [Real.sqrt_eq_zero hnn, ← sumSqDiff_eq_zero_iff a b hlen]
    exact Int.cast_eq_zero
  · rw [histogramDistance_of_sq (histogramDistanceSq_eq a a (le_refl _)), sumSqDiff_self]
    simp

/-- A concrete instance of C11: the histograms `[3, 0, 2]` and `[1, 4, 2]`. -/
theorem histogramDistance_nonneg_zero_iff_witness :
    [3, 0, 2].length = [1, 4, (2 : Int)].length ∧
    ((∃ d, histogramDistance [3, 0, 2] [1, 4, 2] = some d ∧ 0 ≤ d ∧
        (d = 0 ↔ [3, 0, 2] = [1, 4, (2 : Int)])) ∧
      histogramDistance [3, 0, 2] [3, 0, 2] = some 0) :=
  ⟨by decide, histogramDistance_nonneg_zero_iff [3, 0, 2] [1, 4, 2] (by decide)⟩

/-- C12. For histograms `a`, `b`, `c` of the same length the three distances are
defined and `histogramDistance a c ≤ histogramDistance a b + histogramDistance b c`
(triangle inequality, in exact real arithmetic). -/
theorem histogramDistance_triangle (a b c : List Int) (hab : a.length = b.length)
    (hbc : b.length = c.length) :
    ∃ dac dab dbc, histogramDistance a c = some dac ∧ histogramDistance a b = some dab ∧
      histogramDistance b c = some dbc ∧ dac ≤ dab + dbc :=
  ⟨_, _, _,
    histogramDistance_of_sq (histogramDistanceSq_eq a c (le_of_eq (hab.trans hbc))),
    histogramDistance_of_sq (histogramDistanceSq_eq a b (le_of_eq hab)),
    histogramDistance_of_sq (histogramDistanceSq_eq b c (le_of_eq hbc)),
    sqrt_sumSqDiff_triangle a b c hab hbc⟩

/-- A concrete instance of C12: the histograms `[0, 0]`, `[3, 0]` and `[3, 4]`. -/
theorem histogramDistance_triangle_witness :
    [0, 0].length = [3, (0 : Int)].length ∧ [3, 0].length = [3, (4 : Int)].length ∧
    ∃ dac dab dbc, histogramDistance [0, 0] [3, 4] = some dac ∧
      histogramDistance [0, 0] [3, 0] = some dab ∧
      histogramDistance [3, 0] [3, 4] = some dbc ∧ dac ≤ dab + dbc :=
  ⟨by decide, by decide,
    histogramDistance_triangle [0, 0] [3, 0] [3, 4] (by decide) (by decide)⟩

/-- C13. Applying `drawBoundingBox` twice with the same box gives what applying it
once gives: when the first call stays in range and returns the buffer `once`, the
second call on `once` returns `once` again; when the first call writes out of
range, so does the sequence of the two. -/
theorem drawBoundingBox_idempotent (pixels : List RGBColor) (bbox : BoundingBox) :
    (∀ once, drawBoundingBox pixels bbox = some once →
      drawBoundingBox once bbox = some once) ∧
    (drawBoundingBox pixels bbox).bind (fun once => drawBoundingBox once bbox)
      = drawBoundingBox pixels bbox := by
  have h1 : ∀ once, drawBoundingBox pixels bbox = some once →
      drawBoundingBox once bbox = some once := by
    intro once h
    rw [drawBoundingBox_eq_modifyAll] at h ⊢
    exact paintAll_idempotent _ _ _ h
  refine ⟨h1, ?_⟩
  cases h : drawBoundingBox pixels bbox with
  | none => rfl
  | some once => exact h1 once h

/-- C14 (fails on the code). The query image is 200x100, all black (the text
`P3 / 200 100 / 255` and 20000 lines `0 0 0`), the example image is one black pixel:
`main` writes the header `P3 / 100 80 / 255`, the width and height of the box of the
training example, in front of the 20000 pixels of the query image. -/
theorem main_header_is_box_size (uExample uTest : LoadUninit) (uBox : BoundingBox) :
    saveImageText (List.replicate 20000 ⟨0, 0, 0⟩) 200 100
      = "P3\n200 100\n255\n".toList ++ (List.replicate 20000 "0 0 0\n".toList).flatten ∧
    ∃ drawn, main uExample uTest uBox (some (saveImageText [⟨0, 0, 0⟩] 1 1))
        (some (saveImageText (List.replicate 20000 ⟨0, 0, 0⟩) 200 100)) true
        = some (Run.ok (saveImageText drawn 100 80)) ∧
      drawn.length = 20000 ∧
      saveImageText drawn 100 80
        = "P3\n100 80\n255\n".toList ++ (drawn.map showPixel).flatten := by
  have hblack : ChannelsInRange ⟨0, 0, 0⟩ := by decide
  have hblack2 : ChannelsBelow248 ⟨0, 0, 0⟩ := by decide
  have h80 : showInt 80 = "80".toList := by decide
  have h100 : showInt 100 = "100".toList := by decide
  have h200 : showInt 200 = "200".toList := by decide
  have h255 : showInt MAX_COLOR = "255".toList := by decide
  have hline : showPixel ⟨0, 0, 0⟩ = "0 0 0\n".toList := by decide
  constructor
  · unfold saveImageText
    rw [List.map_replicate, hline, h200, h100, h255]
    rfl
  · have hex : loadImage uExample (some (saveImageText [⟨0, 0, 0⟩] 1 1))
        = Run.ok [⟨0, 0, 0⟩] :=
      loadImage_saveImageText uExample [⟨0, 0, 0⟩] 1 1 (by decide) (by decide) (by decide)
        (by decide)
    have htest : loadImage uTest (some (saveImageText (List.replicate 20000 ⟨0, 0, 0⟩) 200 100))
        = Run.ok (List.replicate 20000 ⟨0, 0, 0⟩) :=
      loadImage_saveImageText uTest (List.replicate 20000 ⟨0, 0, 0⟩) 200 100
        (fun p hp => by rw [List.eq_of_mem_replicate hp]; exact hblack)
        (by decide) (by decide) (by rw [List.length_replicate]; norm_num)
    obtain ⟨h1, hh1, hl1⟩ := computeColorHistogram_length [⟨0, 0, 0⟩] (by decide)
    obtain ⟨h2, hh2, hl2⟩ := computeColorHistogram_length
      (List.replicate 20000 ⟨0, 0, 0⟩)
      (fun p hp => by rw [List.eq_of_mem_replicate hp]; exact hblack2)
    have hnn : nearestNeighbor uBox h2 [⟨⟨60, 40, 100, 80⟩, h1⟩] = some ⟨60, 40, 100, 80⟩ :=
      nearestNeighbor_single uBox h2 ⟨⟨60, 40, 100, 80⟩, h1⟩ (by rw [hl2, hl1])
    obtain ⟨drawn, hdraw, hdlen⟩ := drawBoundingBox_of_inRange
      (List.replicate 20000 ⟨0, 0, 0⟩) ⟨60, 40, 100, 80⟩ (by
        intro i hi
        obtain ⟨y, x, hy, hx, rfl⟩ := (mem_drawIndices _ i).mp hi
        rw [List.length_replicate]
        simp only at hy hx ⊢
        omega)
    refine ⟨drawn, ?_, by rw [hdlen, List.length_replicate], ?_⟩
    · have h := main_eq_of_steps uExample uTest uBox (some (saveImageText [⟨0, 0, 0⟩] 1 1))
        (some (saveImageText (List.replicate 20000 ⟨0, 0, 0⟩) 200 100)) [⟨0, 0, 0⟩]
        (List.replicate 20000 ⟨0, 0, 0⟩) h1 h2 ⟨60, 40, 100, 80⟩ drawn hex hh1 htest hh2 hnn
        hdraw
      exact h
    · unfold saveImageText
      rw [h80, h100, h255]
      rfl

/-- C15. For pixels whose channel values all lie in `[0, 247]`, every bin index is
in `[0, 512)` and `computeColorHistogram` returns a histogram of length 512 whose
entry at each index `i` is the number of pixels with
`(r / 31) * 64 + (g / 31) * 8 + b / 31 = i`; its entries sum to the number of pixels. -/
theorem computeColorHistogram_counts (pixels : List RGBColor)
    (hch : ∀ p ∈ pixels, ChannelsBelow248 p) :
    (∀ p ∈ pixels, 0 ≤ binIndex p ∧ binIndex p < 512) ∧
    ∃ hist, computeColorHistogram pixels = some hist ∧ hist.length = 512 ∧
      (∀ i : Nat, i < 512 → hist[i]? = some ((pixels.countP
        (fun p => (p.r / 31) * 64 + (p.g / 31) * 8 + p.b / 31 = (i : Int)) : Nat) : Int)) ∧
      hist.sum = (pixels.length : Int) :=
  computeColorHistogram_spec pixels hch

/-- A concrete instance of C15: the pixels `(0, 0, 0)`, `(247, 247, 247)` and
`(31, 62, 93)`. -/
theorem computeColorHistogram_counts_witness :
    (∀ p ∈ ([⟨0, 0, 0⟩, ⟨247, 247, 247⟩, ⟨31, 62, 93⟩] : List RGBColor),
      ChannelsBelow248 p) ∧
    ((∀ p ∈ ([⟨0, 0, 0⟩, ⟨247, 247, 247⟩, ⟨31, 62, 93⟩] : List RGBColor),
        0 ≤ binIndex p ∧ binIndex p < 512) ∧
      ∃ hist, computeColorHistogram [⟨0, 0, 0⟩, ⟨247, 247, 247⟩, ⟨31, 62, 93⟩] = some hist ∧
        hist.length = 512 ∧
        (∀ i : Nat, i < 512 → hist[i]? = some
          ((([⟨0, 0, 0⟩, ⟨247, 247, 247⟩, ⟨31, 62, 93⟩] : List RGBColor).countP
            (fun p => (p.r / 31) * 64 + (p.g / 31) * 8 + p.b / 31 = (i : Int)) : Nat) : Int)) ∧
        hist.sum = (([⟨0, 0, 0⟩, ⟨247, 247, 247⟩, ⟨31, 62, 93⟩] : List RGBColor).length : Int)) :=
  ⟨by decide,
    computeColorHistogram_counts [⟨0, 0, 0⟩, ⟨247, 247, 247⟩, ⟨31, 62, 93⟩] (by decide)⟩

/-- C16. For a buffer of length `W * H` and a box with `x = 0`, `width = W`, `y ≥ 0`,
`height ≥ 1` and `y + height ≤ H`, `drawBoundingBox` stays in range, keeps the length
and sets the pixel at `y1 * W + x1` to `(255, 0, 0)` when `y1` is one of the rows
`y .. y + height - 1`, leaving it unchanged otherwise. -/
theorem drawBoundingBox_full_width (W H : Int) (pixels : List RGBColor) (bbox : BoundingBox)
    (hlen : (pixels.length : Int) = W * H) (hx : bbox.x = 0) (hw : bbox.width = W)
    (hy : 0 ≤ bbox.y) (_hh : 1 ≤ bbox.height) (hyh : bbox.y + bbox.height ≤ H) :
    ∃ out, drawBoundingBox pixels bbox = some out ∧ out.length = pixels.length ∧
      ∀ x1 y1 : Int, 0 ≤ x1 → x1 < W → 0 ≤ y1 → y1 < H →
        out[(y1 * W + x1).toNat]? =
          if bbox.y ≤ y1 ∧ y1 < bbox.y + bbox.height then some ⟨255, 0, 0⟩
          else pixels[(y1 * W + x1).toNat]? := by
  have hin : ∀ i ∈ drawIndices bbox, 0 ≤ i ∧ i < pixels.length := by
    intro i hi
    obtain ⟨y, x, hy1, hx1, rfl⟩ := (mem_drawIndices bbox i).mp hi
    rw [hx, hw] at hx1
    rw [hw, hlen]
    have hWpos : 0 < W := by omega
    have h1 : 0 ≤ y * W := mul_nonneg (by omega) (by omega)
    have h2 : (y + 1) * W ≤ H * W := mul_le_mul_of_nonneg_right (by omega) (by omega)
    constructor
    · omega
    · nlinarith
  obtain ⟨out, hout, hlen2, hget⟩ := paintAll_eq_some (drawIndices bbox) pixels hin
  refine ⟨out, by rw [drawBoundingBox_eq_modifyAll]; exact hout, hlen2, ?_⟩
  intro x1 y1 hx0 hx1 hy0 hy1
  have hnn : 0 ≤ y1 * W + x1 := by
    have : 0 ≤ y1 * W := mul_nonneg hy0 (by omega)
    omega
  have hcast : (((y1 * W + x1).toNat : Nat) : Int) = y1 * W + x1 := Int.toNat_of_nonneg hnn
  have hlt : (y1 * W + x1).toNat < pixels.length := by
    have h2 : (y1 + 1) * W ≤ H * W := mul_le_mul_of_nonneg_right (by omega) (by omega)
    have : y1 * W + x1 < (pixels.length : Int) := by rw [hlen]; nlinarith
    omega
  rw [hget, hcast]
  have hiff : y1 * W + x1 ∈ drawIndices bbox ↔ bbox.y ≤ y1 ∧ y1 < bbox.y + bbox.height := by
    rw [mem_drawIndices]
    constructor
    · rintro ⟨y, x, hyr, hxr, heq⟩
      rw [hx, hw] at hxr
      rw [hw] at heq
      have hyy : y1 = y := by
        rcases lt_trichotomy y1 y with hlt1 | heq1 | hgt1
        · exfalso
          have : (y1 + 1) * W ≤ y * W := mul_le_mul_of_nonneg_right (by omega) (by omega)
          nlinarith
        · exact heq1
        · exfalso
          have : (y + 1) * W ≤ y1 * W := mul_le_mul_of_nonneg_right (by omega) (by omega)
          nlinarith
      rw [hyy]; exact hyr
    · intro hyr
      exact ⟨y1, x1, hyr, by rw [hx, hw]; omega, by rw [hw]⟩
  by_cases hrow : bbox.y ≤ y1 ∧ y1 < bbox.y + bbox.height
  · rw [if_pos (hiff.mpr hrow), if_pos hrow, List.getElem?_eq_getElem hlt]
    rfl
  · rw [if_neg (fun h => hrow (hiff.mp h)), if_neg hrow]

/-- A concrete instance of C16: a 2x3 image and the full-width box of rows 1 and 2. -/
theorem drawBoundingBox_full_width_witness :
    (([⟨1, 1, 1⟩, ⟨2, 2, 2⟩, ⟨3, 3, 3⟩, ⟨4, 4, 4⟩, ⟨5, 5, 5⟩, ⟨6, 6, 6⟩] :
      List RGBColor).length : Int) = 2 * 3 ∧
    (⟨0, 1, 2, 2⟩ : BoundingBox).x = 0 ∧ (⟨0, 1, 2, 2⟩ : BoundingBox).width = 2 ∧
    0 ≤ (⟨0, 1, 2, 2⟩ : BoundingBox).y ∧ 1 ≤ (⟨0, 1, 2, 2⟩ : BoundingBox).height ∧
    (⟨0, 1, 2, 2⟩ : BoundingBox).y + (⟨0, 1, 2, 2⟩ : BoundingBox).height ≤ 3 ∧
    ∃ out, drawBoundingBox
        [⟨1, 1, 1⟩, ⟨2, 2, 2⟩, ⟨3, 3, 3⟩, ⟨4, 4, 4⟩, ⟨5, 5, 5⟩, ⟨6, 6, 6⟩] ⟨0, 1, 2, 2⟩
        = some out ∧
      out.length = ([⟨1, 1, 1⟩, ⟨2, 2, 2⟩, ⟨3, 3, 3⟩, ⟨4, 4, 4⟩, ⟨5, 5, 5⟩, ⟨6, 6, 6⟩] :
        List RGBColor).length ∧
      ∀ x1 y1 : Int, 0 ≤ x1 → x1 < 2 → 0 ≤ y1 → y1 < 3 →
        out[(y1 * 2 + x1).toNat]? =
          if (⟨0, 1, 2, 2⟩ : BoundingBox).y ≤ y1 ∧
              y1 < (⟨0, 1, 2, 2⟩ : BoundingBox).y + (⟨0, 1, 2, 2⟩ : BoundingBox).height
          then some ⟨255, 0, 0⟩
          else ([⟨1, 1, 1⟩, ⟨2, 2, 2⟩, ⟨3, 3, 3⟩, ⟨4, 4, 4⟩, ⟨5, 5, 5⟩, ⟨6, 6, 6⟩] :
            List RGBColor)[(y1 * 2 + x1).toNat]? :=
  ⟨by decide, by decide, by decide, by decide, by decide, by decide,
    drawBoundingBox_full_width 2 3
      [⟨1, 1, 1⟩, ⟨2, 2, 2⟩, ⟨3, 3, 3⟩, ⟨4, 4, 4⟩, ⟨5, 5, 5⟩, ⟨6, 6, 6⟩] ⟨0, 1, 2, 2⟩
      (by decide) (by decide) (by decide) (by decide) (by decide) (by decide)⟩

/-- C17. The histogram of a permutation of a pixel sequence is the histogram of the
sequence (for all channel values, those of `[0, 255]` included: the two calls return
the same histogram, or both write out of range). -/
theorem computeColorHistogram_perm (pixels permuted : List RGBColor)
    (hperm : permuted.Perm pixels) :
    computeColorHistogram permuted = computeColorHistogram pixels := by
  rw [computeColorHistogram_eq_modifyAll, computeColorHistogram_eq_modifyAll]
  exact modifyAll_perm binIndex _ _ hperm

/-- A concrete instance of C17: two pixels in the two orders. -/
theorem computeColorHistogram_perm_witness :
    ([⟨200, 100, 50⟩, ⟨1, 2, 3⟩] : List RGBColor).Perm [⟨1, 2, 3⟩, ⟨200, 100, 50⟩] ∧
    computeColorHistogram [⟨200, 100, 50⟩, ⟨1, 2, 3⟩]
      = computeColorHistogram [⟨1, 2, 3⟩, ⟨200, 100, 50⟩] :=
  have hperm : ([⟨200, 100, 50⟩, ⟨1, 2, 3⟩] : List RGBColor).Perm
      [⟨1, 2, 3⟩, ⟨200, 100, 50⟩] := List.Perm.swap _ _ _
  ⟨hperm, computeColorHistogram_perm _ _ hperm⟩

/-- C18 (fails on the code). A `P3` text that declares 2x1 pixels and holds one
triple, and one whose second token is not an integer: `loadImage` does not abort, it
returns the declared number of pixels, the missing channels being whatever the
uninitialised local `pixel` holds (and `0` for the token that is not an integer). -/
theorem loadImage_bad_body_no_abort (u : LoadUninit) :
    loadImage u (some "P3\n2 1\n255\n1 2 3\n".toList) = Run.ok [⟨1, 2, 3⟩, u.pixel 1] ∧
    loadImage u (some "P3\n1 1\n255\n1 x 3\n".toList)
      = Run.ok [⟨1, 0, (u.pixel 0).b⟩] := by
  constructor
  · simp [loadImage, readString, readInt, sentry, IStream.good, isspace, isdigit, get, unget,
      skipComments, readPixels, readPixel, decimalValue, MAX_COLOR, COMMENT_CHAR, List.range,
      List.range.loop]
  · simp [loadImage, readString, readInt, sentry, IStream.good, isspace, isdigit, get, unget,
      skipComments, readPixels, readPixel, decimalValue, MAX_COLOR, COMMENT_CHAR, List.range,
      List.range.loop]

/-- C19 (fails on the code). The well-formed text `P3 / 1 1 / 255 / 1 2 3` gives the
pixel `(1, 2, 3)`; with the comment line `# c` inserted after the line `255` the
character `loadImage` tests against `COMMENT_CHAR` is the newline that ends the line
`255`, the comment is not skipped, and the pixel returned is `0` and two
uninitialised channels. -/
theorem loadImage_comment_line_not_skipped (u : LoadUninit) :
    loadImage u (some "P3\n1 1\n255\n1 2 3\n".toList) = Run.ok [⟨1, 2, 3⟩] ∧
    loadImage u (some "P3\n1 1\n255\n# c\n1 2 3\n".toList)
      = Run.ok [⟨0, (u.pixel 0).g, (u.pixel 0).b⟩] ∧
    loadImage u (some "P3\n1 1\n255\n# c\n1 2 3\n".toList)
      ≠ loadImage u (some "P3\n1 1\n255\n1 2 3\n".toList) := by
  have h1 : loadImage u (some "P3\n1 1\n255\n1 2 3\n".toList) = Run.ok [⟨1, 2, 3⟩] := by
    simp [loadImage, readString, readInt, sentry, IStream.good, isspace, isdigit, get, unget,
      skipComments, readPixels, readPixel, decimalValue, MAX_COLOR, COMMENT_CHAR, List.range,
      List.range.loop]
  have h2 : loadImage u (some "P3\n1 1\n255\n# c\n1 2 3\n".toList)
      = Run.ok [⟨0, (u.pixel 0).g, (u.pixel 0).b⟩] := by
    simp [loadImage, readString, readInt, sentry, IStream.good, isspace, isdigit, get, unget,
      skipComments, readPixels, readPixel, decimalValue, MAX_COLOR, COMMENT_CHAR, List.range,
      List.range.loop]
  refine ⟨h1, h2, ?_⟩
  rw [h1, h2]
  intro h
  simp at h

/-- C20. For pixels with channel values in `[0, 255]` and non-negative `int` values
`width` and `height` with `width * height` the number of pixels, `saveImage` writes a
text on which `loadImage` succeeds and returns exactly the pixels. -/
theorem loadImage_saveImage (u : LoadUninit) (pixels : List RGBColor) (width height : Int)
    (hch : ∀ p ∈ pixels, ChannelsInRange p) (hw : 0 ≤ width) (hh : 0 ≤ height)
    (hwi : IsInt width) (hhi : IsInt height)
    (hlen : width * height = (pixels.length : Int)) :
    ∃ text, saveImage true pixels width height = Run.ok text ∧
      loadImage u (some text) = Run.ok pixels :=
  ⟨saveImageText pixels width height, rfl,
    loadImage_saveImageText u pixels width height hch ⟨hw, hwi.2⟩ ⟨hh, hhi.2⟩ hlen⟩

/-- A concrete instance of C20: a 2x1 image. -/
theorem loadImage_saveImage_witness :
    (∀ p ∈ ([⟨1, 2, 3⟩, ⟨0, 255, 40⟩] : List RGBColor), ChannelsInRange p) ∧
    (0 : Int) ≤ 2 ∧ (0 : Int) ≤ 1 ∧ IsInt 2 ∧ IsInt 1 ∧
    (2 : Int) * 1 = (([⟨1, 2, 3⟩, ⟨0, 255, 40⟩] : List RGBColor).length : Int) ∧
    ∃ text, saveImage true [⟨1, 2, 3⟩, ⟨0, 255, 40⟩] 2 1 = Run.ok text ∧
      loadImage ⟨0, 0, 0, fun _ => ⟨0, 0, 0⟩⟩ (some text)
        = Run.ok [⟨1, 2, 3⟩, ⟨0, 255, 40⟩] :=
  ⟨by decide, by decide, by decide, by decide, by decide, by decide,
    loadImage_saveImage ⟨0, 0, 0, fun _ => ⟨0, 0, 0⟩⟩ [⟨1, 2, 3⟩, ⟨0, 255, 40⟩] 2 1
      (by decide) (by decide) (by decide) (by decide) (by decide) (by decide)⟩

end ObjectDetection
